import Mathlib

/-!
# Verification of the lib-fits FITS reader/writer core

This file gives a shallow embedding, in Lean, of the on-disk layout engine of
the `lib_fits` C++ library (the `ofits` writer and `ifits` reader classes),
and proves properties of that embedding.

Modelling choices:
* A file opened with positional I/O is modelled as a write log: a list of
  `(position, bytes)` pairs, newest first.  A byte that no write covers but
  that lies below the file size reads as `0` (a sparse hole); reading past the
  file size fails (as `boost::asio::read_at` throws on EOF).
* Bytes are `Nat` (the value of the octet); ASCII strings are lists of such
  byte values (for example `END` is `[69, 78, 68]`).
* `std::size_t` arithmetic is modelled on `Nat`, and C++ `int` values produced
  by `std::stoi` are modelled on `Int`; none of the theorems below depend on
  wraparound, and those whose C++ counterpart could overflow `int` carry an
  explicit bound hypothesis instead.
* C++ exceptions are modelled with `Except FitsError`; the error constructor
  for each `throw` site follows the error taxonomy of the specification
  (`OutOfBounds`, `HeaderFull`, `ParseError`, ...).
-/

namespace LibFits

/-- Error taxonomy of the library (one constructor per kind of `throw` site). -/
inductive FitsError where
  | notFound
  | outOfBounds
  | headerFull
  | parseError
  | formatError
  | unsupportedBitpix
  | io
  deriving DecidableEq, Repr

/-! ## Byte-level model of a positional-I/O file -/

/-- A file is a log of positional writes, newest first. -/
abbrev FileT := List (Nat × List Nat)

/-- The file size: the least size covering every write (sparse holes included). -/
def fileSize (f : FileT) : Nat :=
  f.foldr (fun w acc => max acc (w.1 + w.2.length)) 0

/-- The value of the byte at position `p`: the newest write covering `p`,
`0` (a sparse hole) otherwise. -/
def byteAt (f : FileT) (p : Nat) : Nat :=
  match f with
  | [] => 0
  | (q, d) :: rest => if q ≤ p ∧ p < q + d.length then d.getD (p - q) 0 else byteAt rest p

/-- Positional read of `n` bytes at `pos` (`boost::asio::read_at`): fails when
the range is not below the file size, as `read_at` throws on end-of-file. -/
def readBytes (f : FileT) (pos n : Nat) : Option (List Nat) :=
  if pos + n ≤ fileSize f then some ((List.range n).map (fun k => byteAt f (pos + k))) else none

/-- Positional write (`boost::asio::write_at`). -/
def writeAt (f : FileT) (pos : Nat) (data : List Nat) : FileT :=
  (pos, data) :: f

/-! ## ASCII keyword constants (byte values) -/

/-- `"SIMPLE"` -/
def kSIMPLE : List Nat := [83, 73, 77, 80, 76, 69]

/-- `"BITPIX"` -/
def kBITPIX : List Nat := [66, 73, 84, 80, 73, 88]

/-- `"NAXIS"` -/
def kNAXIS : List Nat := [78, 65, 88, 73, 83]

/-- `"EXTEND"` -/
def kEXTEND : List Nat := [69, 88, 84, 69, 78, 68]

/-- `"END"` -/
def kEND : List Nat := [69, 78, 68]

/-- `"T"` -/
def kT : List Nat := [84]

/-- `" = "`, the separator placed between keyword and value by the writer. -/
def sepEq : List Nat := [32, 61, 32]

/-- `std::string::resize(80, ' ')`: truncate or pad with spaces to 80 bytes. -/
def pad80 (l : List Nat) : List Nat :=
  l.take 80 ++ List.replicate (80 - l.length) 32

/-- The 80-byte record written for keyword `key` and value `value`
(`key + " = " + value`, resized to 80). -/
def mkRecord (key value : List Nat) : List Nat :=
  pad80 (key ++ sepEq ++ value)

/-- The 80-byte `END` record (`"END"` resized to 80). -/
def endRecord : List Nat := pad80 kEND

/-! ## Decimal printing (`std::to_string` on an unsigned value) -/

/-- Little-endian decimal digit codes of `n`, with fuel (structural recursion so
that the kernel can evaluate it). -/
def natReprAux : Nat → Nat → List Nat
  | 0, _ => []
  | fuel + 1, n => if n = 0 then [] else (n % 10 + 48) :: natReprAux fuel (n / 10)

/-- `std::to_string` of a `std::size_t`: big-endian decimal ASCII codes. -/
def natRepr (n : Nat) : List Nat :=
  if n = 0 then [48] else (natReprAux n n).reverse

/-! ## Block arithmetic and element types -/

/-- `ofits::round_offset` / `ifits::hdu::round_offset`: round up to the
2880-byte block boundary. -/
def roundOffset (offset : Nat) : Nat :=
  if offset % 2880 = 0 then offset else (offset / 2880 + 1) * 2880

/-- `round_up_block` as the specification words it (§4.A); compared with the
source's `round_offset` in the layout theorems. -/
def roundUpBlockSpec (x : Nat) : Nat :=
  if x % 2880 = 0 then x else (x / 2880 + 1) * 2880

/-- The element types the writer is instantiable at (the template arguments
`std::uint8_t, std::int16_t, std::int32_t, std::int64_t, float, double`). -/
inductive FitsType where
  | u8 | i16 | i32 | i64 | f32 | f64
  deriving DecidableEq, Repr

/-- `sizeof(T)` for each supported element type. -/
def sizeOfT : FitsType → Nat
  | .u8 => 1
  | .i16 => 2
  | .i32 => 4
  | .i64 => 8
  | .f32 => 4
  | .f64 => 8

/-- `ofits::hdu::get_bitpix_for_type`. -/
def bitpixOf : FitsType → Int
  | .u8 => 8
  | .i16 => 16
  | .i32 => 32
  | .i64 => 64
  | .f32 => -32
  | .f64 => -64

/-- `std::to_string(bitpix)` for each supported element type
(`"8"`, `"16"`, `"32"`, `"64"`, `"-32"`, `"-64"`). -/
def bitpixRepr : FitsType → List Nat
  | .u8 => [56]
  | .i16 => [49, 54]
  | .i32 => [51, 50]
  | .i64 => [54, 52]
  | .f32 => [45, 51, 50]
  | .f64 => [45, 54, 52]

/-- Product of a list of axis extents. -/
def listProd (l : List Nat) : Nat := l.foldl (fun a b => a * b) 1

/-! ## The writer (`ofits<Args...>`) -/

/-- The state of one `ofits<Args...>::hdu<T>` descriptor. -/
structure OHdu where
  elemType : FitsType
  naxis : List Nat
  headersWritten : Nat
  offset : Nat
  dataBlockSize : Nat
  deriving DecidableEq, Repr

/-- `ofits::hdu::write_header` for a keyword other than `END`: writes the
record at slot `headers_written_` if it lies inside the 2880-byte header
block, incrementing the count; throws (`HeaderFull`) otherwise. -/
def writeHeaderNE (f : FileT) (h : OHdu) (key value : List Nat) :
    Except FitsError (FileT × OHdu) :=
  if h.headersWritten * 80 < 2880 then
    .ok (writeAt f (h.headersWritten * 80 + h.offset) (mkRecord key value),
      { h with headersWritten := h.headersWritten + 1 })
  else
    .error .headerFull

/-- `ofits::hdu::write_header` for `END`: writes the `END` record at slot
`headers_written_` unconditionally, without incrementing the count. -/
def writeEndRec (f : FileT) (h : OHdu) : FileT :=
  writeAt f (h.headersWritten * 80 + h.offset) endRecord

/-- The `NAXIS1 … NAXISn` header-writing loop of the `ofits::hdu` constructor
(`i` is the 1-based axis counter). -/
def writeNaxisHeaders (f : FileT) (h : OHdu) : List Nat → Nat →
    Except FitsError (FileT × OHdu)
  | [], _ => .ok (f, h)
  | n :: rest, i => do
    let (f', h') ← writeHeaderNE f h (kNAXIS ++ natRepr i) (natRepr n)
    writeNaxisHeaders f' h' rest (i + 1)

/-- The `ofits::hdu` constructor: writes `SIMPLE`, `BITPIX`, `NAXIS`,
`NAXIS1..NAXISn`, `EXTEND`, `END` at the HDU's offset and records
`data_block_size_ = naxis_product * |bitpix| / 8` (not rounded to a block
multiple).  The C++ constructor is `noexcept`; a `HeaderFull` escape here
models the `std::terminate` it would cause. -/
def mkOHdu (f : FileT) (t : FitsType) (axes : List Nat) (off : Nat) :
    Except FitsError (FileT × OHdu) := do
  let h0 : OHdu :=
    { elemType := t, naxis := axes, headersWritten := 0, offset := off,
      dataBlockSize := listProd axes * sizeOfT t }
  let (f, h) ← writeHeaderNE f h0 kSIMPLE kT
  let (f, h) ← writeHeaderNE f h kBITPIX (bitpixRepr t)
  let (f, h) ← writeHeaderNE f h kNAXIS (natRepr axes.length)
  let (f, h) ← writeNaxisHeaders f h axes 1
  let (f, h) ← writeHeaderNE f h kEXTEND kT
  .ok (writeEndRec f h, h)

/-- The byte span one HDU occupies in the layout plan: one header block plus
the 2880-rounded data block. -/
def hduSpan (t : FitsType) (axes : List Nat) : Nat :=
  2880 + roundOffset (listProd axes * sizeOfT t)

/-- The offset-planning loop of `ofits::make_hdu_tuple`: starting offsets of
the HDUs of `schema`, the first at `cur`. -/
def planOffsets : List (FitsType × List Nat) → Nat → List Nat
  | [], _ => []
  | (t, axes) :: rest, cur => cur :: planOffsets rest (cur + hduSpan t axes)

/-- The offset just past the planned layout (the final `current_offset`). -/
def planEnd : List (FitsType × List Nat) → Nat → Nat
  | [], cur => cur
  | (t, axes) :: rest, cur => planEnd rest (cur + hduSpan t axes)

/-- `ofits::make_hdu_tuple_impl`: construct every HDU at its planned offset,
threading the file. -/
def mkOfitsAux (f : FileT) : List (FitsType × List Nat) → List Nat →
    Except FitsError (FileT × List OHdu)
  | [], _ => .ok (f, [])
  | (t, axes) :: rest, off :: offs => do
    let (f', h) ← mkOHdu f t axes off
    let (f'', hs) ← mkOfitsAux f' rest offs
    .ok (f'', h :: hs)
  | _ :: _, [] => .error .io

/-- The `ofits` constructor: create the (empty) file and construct every HDU
of the schema at its planned offset. -/
def mkOfits (schema : List (FitsType × List Nat)) :
    Except FitsError (FileT × List OHdu) :=
  mkOfitsAux [] schema (planOffsets schema 0)

/-- `ofits::hdu::calculate_offset`.  `naxis` is the axis-extent vector
`naxis_`, `elemSize` is `sizeof(T)`, `index` the supplied indices.  The C++
dereferences `index.begin()` and `naxis_[0]` before any check, which is
undefined for an empty list; the embedding returns `OutOfBounds` there and no
theorem below relies on that branch. -/
def ofitsCalcOffset (naxis : List Nat) (elemSize : Nat) (index : List Nat) :
    Except FitsError Nat :=
  match index, naxis with
  | i0 :: _, n0 :: _ =>
    if i0 > n0 then .error .outOfBounds
    else if index.length > naxis.length then .error .outOfBounds
    else .ok (calcLoop naxis.reverse index * elemSize)
  | _, _ => .error .outOfBounds
where
  /-- The offset-accumulation loop: at reverse position `d` the inner loop
  multiplies the current index by every reversed extent from position `d` up
  to (excluding) the last, i.e. by `dropLast` of the current reverse suffix. -/
  calcLoop : List Nat → List Nat → Nat
  | _, [] => 0
  | r, i :: rest => i * listProd r.dropLast + calcLoop r.tail rest

/-- `ofits::hdu::value_as` (the `set`-style header append): writes the user
record over the current `END` slot, increments the count, and re-writes `END`
one slot later; throws `HeaderFull` when the user record would not lie inside
the 2880-byte header block. -/
def valueAsSet (f : FileT) (h : OHdu) (key value : List Nat) :
    Except FitsError (FileT × OHdu) :=
  if h.headersWritten * 80 < 2880 then
    let f1 := writeAt f (h.headersWritten * 80 + h.offset) (mkRecord key value)
    let h1 := { h with headersWritten := h.headersWritten + 1 }
    let f2 := writeAt f1 (h1.headersWritten * 80 + h.offset) endRecord
    .ok (f2, h1)
  else
    .error .headerFull

/-- `ofits::hdu::write_data`: computes the byte offset from the index, checks
`data_size + offset > data_block_size_`, and writes at
`offset_ + 2880 + offset`, returning the number of bytes written. -/
def writeDataOp (f : FileT) (h : OHdu) (index : List Nat) (bytes : List Nat) :
    Except FitsError (FileT × Nat) := do
  let co ← ofitsCalcOffset h.naxis (sizeOfT h.elemType) index
  if bytes.length + co > h.dataBlockSize then
    .error .outOfBounds
  else
    .ok (writeAt f (h.offset + 2880 + co) bytes, bytes.length)

/-- A user-level operation on a constructed writer: a header `set`
(`value_as<N>`) or a data write (`write_data<N>`). -/
inductive WOp where
  | set (n : Nat) (key value : List Nat)
  | writeData (n : Nat) (index : List Nat) (bytes : List Nat)

/-- One writer operation applied to the file and HDU-descriptor list. -/
def stepOp (S : FileT × List OHdu) (op : WOp) :
    Except FitsError (FileT × List OHdu) :=
  match op with
  | .set n k v =>
    match S.2[n]? with
    | some h => do
      let (f', h') ← valueAsSet S.1 h k v
      .ok (f', S.2.set n h')
    | none => .error .io
  | .writeData n idx bytes =>
    match S.2[n]? with
    | some h => do
      let (f', _) ← writeDataOp S.1 h idx bytes
      .ok (f', S.2)
    | none => .error .io

/-- A sequence of writer operations. -/
def runOps (S : FileT × List OHdu) : List WOp → Except FitsError (FileT × List OHdu)
  | [] => .ok S
  | op :: rest => do
    let S' ← stepOp S op
    runOps S' rest

/-! ## Layout and invariant vocabulary (writer side) -/

/-- The planned start offset of HDU `i` (`offset[i]` of `make_hdu_tuple`). -/
def planOffsetAt (schema : List (FitsType × List Nat)) (i : Nat) : Nat :=
  (planOffsets schema 0).getD i 0

/-- The k-th mandatory header record the `ofits::hdu` constructor emits for an
HDU of type `t` and extents `axes` (`SIMPLE`, `BITPIX`, `NAXIS`,
`NAXIS1..NAXISn`, `EXTEND`). -/
def mandRecord (t : FitsType) (axes : List Nat) (k : Nat) : List Nat :=
  if k = 0 then mkRecord kSIMPLE kT
  else if k = 1 then mkRecord kBITPIX (bitpixRepr t)
  else if k = 2 then mkRecord kNAXIS (natRepr axes.length)
  else if k < 3 + axes.length then
    mkRecord (kNAXIS ++ natRepr (k - 2)) (natRepr (axes.getD (k - 3) 0))
  else mkRecord kEXTEND kT

/-- All positional writes taking `f` to `f'` lie inside `[lo, hi)`: reads
outside that window are preserved (the file only grows, never past `hi` or
its old size). -/
def WritesWithin (f f' : FileT) (lo hi : Nat) : Prop :=
  (∀ pos n r, (pos + n ≤ lo ∨ hi ≤ pos) → readBytes f pos n = some r →
    readBytes f' pos n = some r) ∧
  fileSize f ≤ fileSize f' ∧ fileSize f' ≤ max (fileSize f) hi

/-- The file/descriptor invariant of one writer HDU of type `t`, extents
`axes`, planned offset `off`: the descriptor fields are as constructed, the
mandatory records sit in slots `0 … naxis+3`, user records (each satisfying
`US`) in slots `naxis+4 … count−1`, and the `END` record in slot `count`,
which still lies inside the 2880-byte header block. -/
structure HduInv (f : FileT) (US : List Nat → Prop) (t : FitsType)
    (axes : List Nat) (off : Nat) (h : OHdu) : Prop where
  het : h.elemType = t
  hax : h.naxis = axes
  hoff : h.offset = off
  hdbs : h.dataBlockSize = listProd axes * sizeOfT t
  hcl : axes.length + 4 ≤ h.headersWritten
  hcu : h.headersWritten ≤ 35
  hmand : ∀ k, k < axes.length + 4 →
    readBytes f (off + 80 * k) 80 = some (mandRecord t axes k)
  huser : ∀ k, axes.length + 4 ≤ k → k < h.headersWritten →
    ∃ r, readBytes f (off + 80 * k) 80 = some r ∧ US r
  hend : readBytes f (off + 80 * h.headersWritten) 80 = some endRecord

/-- The writer invariant for a whole state: one `HduInv` per schema entry at
its planned offset, and the file never extends past the planned layout. -/
structure WInv (schema : List (FitsType × List Nat))
    (US : Nat → List Nat → Prop) (S : FileT × List OHdu) : Prop where
  hlen : S.2.length = schema.length
  hhdu : ∀ i t axes, schema[i]? = some (t, axes) → ∃ h, S.2[i]? = some h ∧
    HduInv S.1 (US i) t axes (planOffsetAt schema i) h
  hsz : fileSize S.1 ≤ planEnd schema 0

/-- Well-formedness of a schema, as the claims assume it: at least one axis
per HDU, positive extents, a product below `2^31` (so the reader's `int`
arithmetic and `stoi` do not overflow), and the header block able to hold the
mandatory records (`naxis ≤ 31`). -/
def SchemaWF (schema : List (FitsType × List Nat)) : Prop :=
  ∀ e ∈ schema, e.2 ≠ [] ∧ (∀ n ∈ e.2, 0 < n) ∧
    listProd e.2 < 2 ^ 31 ∧ e.2.length ≤ 31

/-- The key `"END"` padded to a full 80-byte keyword, used by the C9
counterexample: `value_as` with this key writes a record that is byte-for-byte
the `END` record. -/
def evilKey : List Nat := kEND ++ List.replicate 77 32

/-- Thirty `set` operations on HDU 0, the first with the `END`-image key: on
a one-axis HDU they raise the record count from 5 to 35. -/
def c9Ops : List WOp :=
  WOp.set 0 evilKey [] :: List.replicate 29 (WOp.set 0 [88] [89])

/-- Thirty benign `set` operations on HDU 0 (they raise a one-axis HDU's
record count from 5 to 35). -/
def c9wOps : List WOp := List.replicate 30 (WOp.set 0 [88] [89])

/-- The writer state for schema `[(u8, [1])]` right after construction. -/
def c9wS0 : FileT × List OHdu :=
  match mkOfits [(FitsType.u8, [1])] with
  | .ok s => s
  | .error _ => ([], [])

/-- The writer state after the thirty benign `set`s: HDU 0 holds 35 records. -/
def c9wS1 : FileT × List OHdu :=
  match runOps c9wS0 c9wOps with
  | .ok s => s
  | .error _ => ([], [])

/-- HDU 0's descriptor in `c9wS1` (35 records written). -/
def c9wHdu : OHdu :=
  c9wS1.2.getD 0
    { elemType := .u8, naxis := [], headersWritten := 0, offset := 0,
      dataBlockSize := 0 }

/-- The file and descriptor after one more `set` on the 35-record HDU. -/
def c9wSet : FileT × OHdu :=
  match valueAsSet c9wS1.1 c9wHdu [87] [86] with
  | .ok p => p
  | .error _ => ([], c9wHdu)

/-! ## The reader (`ifits`) -/

/-- `std::isspace` on the default locale (ASCII). -/
def isWsB (c : Nat) : Bool := c = 32 || (9 ≤ c && c ≤ 13)

/-- ASCII decimal digit. -/
def isDigitB (c : Nat) : Bool := 48 ≤ c && c ≤ 57

/-- `boost::algorithm::trim`: strip leading and trailing whitespace. -/
def trimList (l : List Nat) : List Nat :=
  ((l.dropWhile isWsB).reverse.dropWhile isWsB).reverse

/-- `boost::algorithm::erase_all(s, c)` for a single character. -/
def eraseAllB (c : Nat) (l : List Nat) : List Nat :=
  l.filter (fun x => x != c)

/-- Parsing one 80-byte header record, as in `ifits::hdu::extract_next_HDU`:
the keyword is bytes 0–7 with whitespace and `=` removed; the value is bytes
8–37, cut at the first `/` (comment separator), with whitespace and `=`
removed. -/
def parseRecord (buf : List Nat) : List Nat × List Nat :=
  let key := eraseAllB 61 (eraseAllB 32 (trimList (buf.take 8)))
  let v0 := (buf.drop 8).take 30
  let v1 := match v0.findIdx? (fun c => c == 47) with
            | some k => v0.take k
            | none => v0
  (key, eraseAllB 61 (eraseAllB 32 v1))

/-- The value of a big-endian list of decimal digit codes. -/
def decVal (ds : List Nat) : Nat :=
  ds.foldl (fun a c => a * 10 + (c - 48)) 0

/-- `std::stoi`: skip leading whitespace, optional sign, then decimal digits;
throws (`ParseError`) when no digit follows.  (`std::out_of_range` on values
exceeding `int` is not modelled; every theorem that evaluates `stoiM` bounds
its input below `2^31`.) -/
def stoiM (l : List Nat) : Except FitsError Int :=
  match l.dropWhile isWsB with
  | [] => .error .parseError
  | c :: r =>
    if c = 45 then
      let ds := r.takeWhile isDigitB
      if ds.isEmpty then .error .parseError else .ok (-(decVal ds : Int))
    else if c = 43 then
      let ds := r.takeWhile isDigitB
      if ds.isEmpty then .error .parseError else .ok (decVal ds : Int)
    else
      let ds := (c :: r).takeWhile isDigitB
      if ds.isEmpty then .error .parseError else .ok (decVal ds : Int)

/-- `std::tolower` on ASCII. -/
def ciLower (c : Nat) : Nat := if 65 ≤ c ∧ c ≤ 90 then c + 32 else c

/-- `CaseInsensitiveEqual` (`search.hpp`): equality after `tolower` on every
character. -/
def ciEqB (a b : List Nat) : Bool := a.map ciLower == b.map ciLower

/-- Keyword lookup in the header container (`headers_.find(key)`).  The C++
container is an `unordered_multimap`; the embedding takes the first entry in
insertion order, and every theorem that relies on a lookup ensures the looked
up keyword occurs at most once (so the choice a real `find` makes is
irrelevant). -/
def findHeader (headers : List (List Nat × List Nat)) (key : List Nat) :
    Option (List Nat) :=
  (headers.find? (fun kv => ciEqB kv.1 key)).map (fun kv => kv.2)

/-- A parsed HDU of the reader: its headers (in insertion order) and the
absolute offset of its data block (`ifits::hdu::offset_`). -/
structure RHdu where
  headers : List (List Nat × List Nat)
  offset : Nat
  deriving DecidableEq, Repr

/-- The record-reading loop of `ifits::hdu::extract_next_HDU`: read 80-byte
records, parse them, and accumulate them until the `END` keyword; returns the
headers and the byte position of the `END` record.  The C++ loop is unbounded;
`fuel` is a termination bound that the caller picks large enough (fuel
exhaustion, like a failed `read_at`, surfaces as an error). -/
def extractHDUAux (f : FileT) : Nat → Nat → List (List Nat × List Nat) →
    Except FitsError (List (List Nat × List Nat) × Nat)
  | 0, _, _ => .error .io
  | fuel + 1, offset, acc =>
    match readBytes f offset 80 with
    | none => .error .io
    | some buf =>
      let kv := parseRecord buf
      if kv.1 = kEND then .ok (acc, offset)
      else extractHDUAux f fuel (offset + 80) (acc ++ [kv])

/-- `ifits::hdu::get_NAXIS`: look up `NAXIS` and convert with `stoi`. -/
def getNAXIS (hs : List (List Nat × List Nat)) : Except FitsError Int :=
  match findHeader hs kNAXIS with
  | none => .error .notFound
  | some v => stoiM v

/-- `ifits::hdu::get_BITPIX`. -/
def getBITPIX (hs : List (List Nat × List Nat)) : Except FitsError Int :=
  match findHeader hs kBITPIX with
  | none => .error .notFound
  | some v => stoiM v

/-- The accumulation loop of `ifits::hdu::get_NAXIS_product`:
`product *= stoi(NAXISi)` for `i` over `js`. -/
def naxisProdLoop (hs : List (List Nat × List Nat)) : List Nat → Int →
    Except FitsError Int
  | [], acc => .ok acc
  | j :: rest, acc =>
    match findHeader hs (kNAXIS ++ natRepr j) with
    | none => .error .notFound
    | some v => do
      let n ← stoiM v
      naxisProdLoop hs rest (acc * n)

/-- `ifits::hdu::get_NAXIS_product`: the product of `NAXIS1 … NAXISn`. -/
def getNAXISProduct (hs : List (List Nat × List Nat)) : Except FitsError Int := do
  let m ← getNAXIS hs
  naxisProdLoop hs (List.range' 1 m.toNat) 1

/-- `ifits::hdu::calculate_data_block_size`:
`round_offset(product * |BITPIX| / 8)`.  The `int` result is converted to
`std::size_t`; the conversion is only meaningful for a nonnegative product and
every theorem below reaches this with positive extents. -/
def calculateDataBlockSize (hs : List (List Nat × List Nat)) :
    Except FitsError Nat := do
  let p ← getNAXISProduct hs
  let b ← getBITPIX hs
  .ok (roundOffset ((p * (b.natAbs : Int)).toNat / 8))

/-- The inner loop of `ifits::hdu::calculate_offset`: for the axis counter
`i`, the product `NAXIS_i · NAXIS_{i-1} ⋯ NAXIS_2` of header-declared extents
(the loop `for (j = i; j != 1; --j)`).  `stoi`'s `int` is multiplied into a
`std::size_t`; nonnegative under the theorems' hypotheses. -/
def naxisSuffixProd (hs : List (List Nat × List Nat)) : Nat → Except FitsError Nat
  | 0 => .ok 1
  | 1 => .ok 1
  | j + 2 =>
    match findHeader hs (kNAXIS ++ natRepr (j + 2)) with
    | none => .error .notFound
    | some v => do
      let n ← stoiM v
      let rest ← naxisSuffixProd hs (j + 1)
      .ok (n.toNat * rest)

/-- The index-summation loop of `ifits::hdu::calculate_offset` (`cur` is the
decrementing axis counter `i`, `acc` the accumulated offset). -/
def ifitsCalcLoop (hs : List (List Nat × List Nat)) :
    List Nat → Nat → Nat → Except FitsError Nat
  | [], _, acc => .ok acc
  | i :: rest, cur, acc => do
    let p ← naxisSuffixProd hs cur
    ifitsCalcLoop hs rest (cur - 1) (acc + i * p)

/-- `ifits::hdu::calculate_offset`: element offset (in elements, not bytes)
from an index list and the header-declared extents. -/
def ifitsCalcOffset (hs : List (List Nat × List Nat)) (index : List Nat) :
    Except FitsError Nat := do
  let m ← getNAXIS hs
  if (index.length : Int) > m then .error .outOfBounds
  else ifitsCalcLoop hs index m.toNat 0

/-- `ifits::hdu::image_hdu<T>::read_data`: the byte offset is
`sizeof(T) * calculate_offset(index)`; after the (lax) bound check the bytes
are read at `offset_ + offset` and the byte count is returned. -/
def imageReadData (f : FileT) (h : RHdu) (elemSize : Nat) (index : List Nat)
    (len : Nat) : Except FitsError (List Nat × Nat) := do
  let co ← ifitsCalcOffset h.headers index
  let offset := elemSize * co
  let dbs ← calculateDataBlockSize h.headers
  if offset > dbs + h.offset then .error .outOfBounds
  else
    match readBytes f (h.offset + offset) len with
    | none => .error .io
    | some bs => .ok (bs, len)

/-- `sizeof` of the element type `ifits::hdu::apply` dispatches to for a
`BITPIX` value; `UnsupportedBitpix` outside the closed set. -/
def elemSizeOfBitpix (b : Int) : Except FitsError Nat :=
  if b = 8 then .ok 1
  else if b = 16 then .ok 2
  else if b = 32 then .ok 4
  else if b = 64 then .ok 8
  else if b = -32 then .ok 4
  else if b = -64 then .ok 8
  else .error .unsupportedBitpix

/-- `apply` followed by `read_data` on the dispatched `image_hdu<T>`: read
`len` bytes at `index` from the HDU `h` of file `f`. -/
def applyReadData (f : FileT) (h : RHdu) (index : List Nat) (len : Nat) :
    Except FitsError (List Nat × Nat) := do
  let b ← getBITPIX h.headers
  let s ← elemSizeOfBitpix b
  imageReadData f h s index len

/-- The HDU-iteration loop of the `ifits` constructor: extract an HDU, record
it, jump past its data block, and stop once the next offset reaches the file
size.  `fuel` bounds the (source-unbounded) loop; the caller picks it large
enough. -/
def readFitsAux (f : FileT) : Nat → Nat → List RHdu → Except FitsError (List RHdu)
  | 0, _, _ => .error .io
  | fuel + 1, off, acc => do
    let r ← extractHDUAux f (fileSize f / 80 + 1) off []
    let hd : RHdu := ⟨r.1, roundOffset r.2⟩
    let dbs ← calculateDataBlockSize hd.headers
    let next := roundOffset hd.offset + dbs
    let acc' := acc ++ [hd]
    if fileSize f ≤ next then .ok acc' else readFitsAux f fuel next acc'

/-- The `ifits` constructor: parse every HDU of the file, starting at
offset 0. -/
def ifitsOpen (f : FileT) : Except FitsError (List RHdu) :=
  readFitsAux f (fileSize f / 2880 + 1) 0 []

/-- `ifits::hdu::value_as<T>`: look up the key and convert the stored string;
`parse` stands for the stream extraction `istringstream >> T` (`none` when the
conversion fails). -/
def valueAs {α : Type} (parse : List Nat → Option α)
    (hs : List (List Nat × List Nat)) (key : List Nat) : Except FitsError α :=
  match findHeader hs key with
  | none => .error .notFound
  | some v =>
    match parse v with
    | none => .error .parseError
    | some x => .ok x

/-- `ifits::hdu::value_as_optional<T>`: `none` when the key is absent; a
failed conversion of a present value throws (`ParseError`). -/
def valueAsOptional {α : Type} (parse : List Nat → Option α)
    (hs : List (List Nat × List Nat)) (key : List Nat) :
    Except FitsError (Option α) :=
  match findHeader hs key with
  | some v =>
    match parse v with
    | none => .error .parseError
    | some x => .ok (some x)
  | none => .ok none

/-- Decidable equality of outcomes, so that concrete runs can be checked by
`decide`. -/
instance {ε α : Type} [DecidableEq ε] [DecidableEq α] :
    DecidableEq (Except ε α) := fun a b =>
  match a, b with
  | .ok x, .ok y =>
    if h : x = y then .isTrue (by rw [h]) else .isFalse (by simp [h])
  | .error x, .error y =>
    if h : x = y then .isTrue (by rw [h]) else .isFalse (by simp [h])
  | .ok _, .error _ => .isFalse (by simp)
  | .error _, .ok _ => .isFalse (by simp)

/-! ## Specification-side definitions (for comparison with the source) -/

/-- `offset_of` exactly as §4.A of the specification words it:
`elem_size · Σ_{d=0..k−1} i_d · Π_{j=d+2..naxis} n_j` (the row-major mapping
with the outermost axis varying slowest).  This is the spec's formula, to be
compared against the source's `calculate_offset`. -/
def offsetOfSpec (elemSize : Nat) (axes index : List Nat) : Nat :=
  elemSize * (List.range index.length).foldl
    (fun acc d => acc + index.getD d 0 * listProd (axes.drop (d + 1))) 0

/-! ## Concrete states used by witnesses -/

/-- The file of a writer HDU `(u8, [2,3])` constructed at offset 0. -/
def c4File : FileT :=
  match mkOHdu [] FitsType.u8 [2, 3] 0 with
  | .ok p => p.1
  | .error _ => []

/-- The descriptor of a writer HDU `(u8, [2,3])` constructed at offset 0. -/
def c4Hdu : OHdu :=
  match mkOHdu [] FitsType.u8 [2, 3] 0 with
  | .ok p => p.2
  | .error _ => { elemType := .u8, naxis := [], headersWritten := 0, offset := 0,
                  dataBlockSize := 0 }

/-- A writer HDU descriptor with 35 header records written (as reached after
thirty `set` calls on a one-axis HDU). -/
def hdu35 : OHdu :=
  { elemType := .u8, naxis := [1], headersWritten := 35, offset := 0,
    dataBlockSize := 1 }

/-- A writer HDU descriptor with 36 header records written (the header block
is full). -/
def hdu36 : OHdu :=
  { elemType := .u8, naxis := [1], headersWritten := 36, offset := 0,
    dataBlockSize := 1 }

/-- The stream conversion `istringstream >> int` used to instantiate the
reader's `value_as_optional<T>` at a concrete `T`. -/
def parseIntStream (l : List Nat) : Option Int := (stoiM l).toOption

/-- The file of a writer HDU `(u8, [200,300])` constructed at offset 0 (the
first scenario of §8 of the specification). -/
def c7File : FileT :=
  match mkOHdu [] FitsType.u8 [200, 300] 0 with
  | .ok p => p.1
  | .error _ => []

/-- The descriptor of a writer HDU `(u8, [200,300])` constructed at offset 0. -/
def c7Hdu : OHdu :=
  match mkOHdu [] FitsType.u8 [200, 300] 0 with
  | .ok p => p.2
  | .error _ => { elemType := .u8, naxis := [], headersWritten := 0, offset := 0,
                  dataBlockSize := 0 }

/-! ## Reader-side vocabulary for the round trip (claim C2) -/

/-- The parsed `(keyword, value)` pairs the reader recovers from the writer's
`NAXIS1 … NAXISn` records, starting at axis number `j`. -/
def naxisParsed : List Nat → Nat → List (List Nat × List Nat)
  | [], _ => []
  | n :: rest, j => (kNAXIS ++ natRepr j, natRepr n) :: naxisParsed rest (j + 1)

/-- The parsed header pairs of the mandatory records of an HDU of type `t` and
extents `axes`, in record (= insertion) order. -/
def mandParsed (t : FitsType) (axes : List Nat) : List (List Nat × List Nat) :=
  (kSIMPLE, kT) :: (kBITPIX, bitpixRepr t) :: (kNAXIS, natRepr axes.length) ::
    (naxisParsed axes 1 ++ [(kEXTEND, kT)])

/-- A benign parsed user header: its keyword is not `END` (which would cut the
reader's record loop short) and does not collide case-insensitively with
`BITPIX`, `NAXIS` or any `NAXISj` the reader ever looks up (the C++ header
container is an unordered multimap, so a colliding duplicate could shadow the
mandatory entry under an unspecified `find`). -/
def GoodUserKV (kv : List Nat × List Nat) : Prop :=
  kv.1 ≠ kEND ∧ ciEqB kv.1 kBITPIX = false ∧ ciEqB kv.1 kNAXIS = false ∧
    ∀ j, j < 32 → 1 ≤ j → ciEqB kv.1 (kNAXIS ++ natRepr j) = false

/-- The accumulated sum of the reader's `calculate_offset` loop over the
header-declared extents `axes`: the index at (decrementing) axis counter `cur`
is multiplied by `Π_{j=2..cur} NAXISj`. -/
def ifitsSumSpec (axes : List Nat) : List Nat → Nat → Nat
  | [], _ => 0
  | i :: rest, cur =>
    i * listProd ((axes.drop 1).take (cur - 1)) + ifitsSumSpec axes rest (cur - 1)

/-- The writer state for schema `[(u8, [2,2])]` right after construction. -/
def c2wS0 : FileT × List OHdu :=
  match mkOfits [(FitsType.u8, [2, 2])] with
  | .ok s => s
  | .error _ => ([], [])

/-- The descriptor of the single HDU of `c2wS0`. -/
def c2wHdu : OHdu :=
  { elemType := .u8, naxis := [2, 2], headersWritten := 6, offset := 0,
    dataBlockSize := 4 }

/-- The file of `c2wS0` after `write_data` of the two bytes `[7, 9]` at index
`[1, 0]` (byte offset 2, so at absolute position 2882). -/
def c2wF2 : FileT := writeAt c2wS0.1 2882 [7, 9]

/-- Thirty-one header `set`s (driving a one-axis HDU's record count from 5 to
36, the last re-emitting `END` at byte 2880) followed by a 1-byte data write at
the valid index `[0]`, which lands at byte 2880 and overwrites the displaced
`END` record's first byte. -/
def c2cOps : List WOp :=
  List.replicate 31 (WOp.set 0 [88] [89]) ++ [WOp.writeData 0 [0] [7]]

/-! ## Basic lemmas: the file model -/

theorem fileSize_writeAt (f : FileT) (pos : Nat) (d : List Nat) :
    fileSize (writeAt f pos d) = max (fileSize f) (pos + d.length) := rfl

theorem fileSize_le_writeAt (f : FileT) (pos : Nat) (d : List Nat) :
    fileSize f ≤ fileSize (writeAt f pos d) := by
  rw [fileSize_writeAt]; exact le_max_left _ _

theorem byteAt_writeAt_inside (f : FileT) (q p : Nat) (d : List Nat)
    (h1 : q ≤ p) (h2 : p < q + d.length) :
    byteAt (writeAt f q d) p = d.getD (p - q) 0 := by
  simp [writeAt, byteAt, h1, h2]

theorem byteAt_writeAt_outside (f : FileT) (q p : Nat) (d : List Nat)
    (h : p < q ∨ q + d.length ≤ p) :
    byteAt (writeAt f q d) p = byteAt f p := by
  have : ¬(q ≤ p ∧ p < q + d.length) := by omega
  simp [writeAt, byteAt, this]

theorem readBytes_bound {f : FileT} {pos n : Nat} {r : List Nat}
    (h : readBytes f pos n = some r) : pos + n ≤ fileSize f := by
  by_contra hc
  simp [readBytes, hc] at h

theorem readBytes_length {f : FileT} {pos n : Nat} {r : List Nat}
    (h : readBytes f pos n = some r) : r.length = n := by
  have hb := readBytes_bound h
  simp only [readBytes, if_pos hb, Option.some.injEq] at h
  rw [← h]; simp

theorem readBytes_of_le {f : FileT} {pos n : Nat}
    (h : pos + n ≤ fileSize f) :
    readBytes f pos n = some ((List.range n).map (fun k => byteAt f (pos + k))) := by
  simp [readBytes, h]

/-- Reading a range untouched by a new write is unchanged. -/
theorem readBytes_writeAt_disjoint {f : FileT} {pos n : Nat} {r : List Nat}
    (q : Nat) (d : List Nat) (hd : pos + n ≤ q ∨ q + d.length ≤ pos)
    (h : readBytes f pos n = some r) :
    readBytes (writeAt f q d) pos n = some r := by
  have hb := readBytes_bound h
  have hb' : pos + n ≤ fileSize (writeAt f q d) :=
    le_trans hb (fileSize_le_writeAt _ _ _)
  rw [readBytes_of_le hb']
  rw [readBytes_of_le hb] at h
  rw [← h]
  congr 1
  apply List.map_congr_left
  intro k hk
  rw [List.mem_range] at hk
  exact byteAt_writeAt_outside _ _ _ _ (by omega)

/-- A list is recovered by indexing it with `getD` over its range. -/
theorem map_getD_range (d : List Nat) :
    (List.range d.length).map (fun k => d.getD k 0) = d := by
  apply List.ext_getElem
  · simp
  · intro i h1 h2
    simp only [List.getElem_map, List.getElem_range]
    rw [List.getD_eq_getElem?_getD, List.getElem?_eq_getElem h2]
    rfl

/-- Reading back exactly the range of the newest write yields the data. -/
theorem readBytes_writeAt_self (f : FileT) (pos : Nat) (d : List Nat) :
    readBytes (writeAt f pos d) pos d.length = some d := by
  have hb : pos + d.length ≤ fileSize (writeAt f pos d) := by
    rw [fileSize_writeAt]; omega
  rw [readBytes_of_le hb]
  congr 1
  calc (List.range d.length).map (fun k => byteAt (writeAt f pos d) (pos + k))
      = (List.range d.length).map (fun k => d.getD k 0) := by
        apply List.map_congr_left
        intro k hk
        rw [List.mem_range] at hk
        rw [byteAt_writeAt_inside f pos (pos + k) d (by omega) (by omega)]
        congr 1
        omega
    _ = d := map_getD_range d

/-! ## Basic lemmas: block rounding -/

theorem roundOffset_eq_spec : roundOffset = roundUpBlockSpec := rfl

theorem le_roundOffset (x : Nat) : x ≤ roundOffset x := by
  unfold roundOffset
  split
  · exact le_refl x
  · omega

theorem roundOffset_mod (x : Nat) : roundOffset x % 2880 = 0 := by
  unfold roundOffset
  split
  · assumption
  · omega

theorem roundOffset_of_mod {x : Nat} (h : x % 2880 = 0) : roundOffset x = x := by
  simp [roundOffset, h]

/-- Rounding `O + r` for block-aligned `O` and `0 < r ≤ 2880` gives the next
block boundary `O + 2880`. -/
theorem roundOffset_add_block {O r : Nat} (hO : O % 2880 = 0) (h1 : 0 < r)
    (h2 : r ≤ 2880) : roundOffset (O + r) = O + 2880 := by
  unfold roundOffset
  split <;> omega

/-! ## Basic lemmas: decimal printing and parsing -/

theorem natReprAux_eq_digits : ∀ (fuel n : Nat), n ≤ fuel →
    natReprAux fuel n = (Nat.digits 10 n).map (fun d => d + 48)
  | 0, n, h => by
    have : n = 0 := by omega
    subst this
    simp [natReprAux]
  | fuel + 1, n, h => by
    by_cases hn : n = 0
    · subst hn; simp [natReprAux]
    · rw [natReprAux, if_neg hn,
        Nat.digits_def' (by norm_num : (1:Nat) < 10) (Nat.pos_of_ne_zero hn)]
      rw [natReprAux_eq_digits fuel (n / 10)
        (by have := Nat.div_lt_self (Nat.pos_of_ne_zero hn) (by norm_num : (1:Nat) < 10); omega)]
      simp

theorem natRepr_eq_digits {n : Nat} (hn : n ≠ 0) :
    natRepr n = ((Nat.digits 10 n).map (fun d => d + 48)).reverse := by
  rw [natRepr, if_neg hn, natReprAux_eq_digits n n (le_refl n)]

theorem mem_natRepr {c n : Nat} (h : c ∈ natRepr n) : 48 ≤ c ∧ c ≤ 57 := by
  by_cases hn : n = 0
  · subst hn
    simp [natRepr] at h
    omega
  · rw [natRepr_eq_digits hn] at h
    rw [List.mem_reverse, List.mem_map] at h
    obtain ⟨d, hd, rfl⟩ := h
    have := Nat.digits_lt_base (by norm_num) hd
    omega

theorem natRepr_ne_nil (n : Nat) : natRepr n ≠ [] := by
  by_cases hn : n = 0
  · subst hn; simp [natRepr]
  · rw [natRepr_eq_digits hn]
    simp [Nat.digits_ne_nil_iff_ne_zero.mpr hn]

theorem foldl_decStep_reverse (l : List Nat) (acc : Nat) :
    List.foldl (fun a d => a * 10 + d) acc l.reverse =
      acc * 10 ^ l.length + Nat.ofDigits 10 l := by
  induction l generalizing acc with
  | nil => simp
  | cons d t ih =>
    rw [List.reverse_cons, List.foldl_append, ih]
    simp only [List.foldl_cons, List.foldl_nil, Nat.ofDigits_cons, List.length_cons]
    ring

theorem decVal_natRepr (n : Nat) : decVal (natRepr n) = n := by
  by_cases hn : n = 0
  · subst hn; rfl
  · rw [natRepr_eq_digits hn, decVal, ← List.map_reverse, List.foldl_map]
    have hfun : (fun (a b : Nat) => a * 10 + (b + 48 - 48)) = (fun a d => a * 10 + d) := by
      funext a b
      omega
    rw [hfun, foldl_decStep_reverse, Nat.ofDigits_digits]
    ring

theorem natRepr_injective {m n : Nat} (h : natRepr m = natRepr n) : m = n := by
  have := decVal_natRepr m
  rw [h, decVal_natRepr] at this
  omega

theorem natRepr_length_le {n k : Nat} (hk : 1 ≤ k) (h : n < 10 ^ k) :
    (natRepr n).length ≤ k := by
  by_cases hn : n = 0
  · subst hn; simpa [natRepr] using hk
  · rw [natRepr_eq_digits hn]
    rw [List.length_reverse, List.length_map,
      Nat.digits_len 10 n (by norm_num) hn]
    have := (Nat.lt_pow_iff_log_lt (by norm_num : (1:Nat) < 10) hn).mp h
    omega

theorem not_isWsB_of_digit {c : Nat} (h : 48 ≤ c) : isWsB c = false := by
  simp [isWsB]
  omega

theorem isDigitB_of_digit {c : Nat} (h1 : 48 ≤ c) (h2 : c ≤ 57) : isDigitB c = true := by
  simp [isDigitB]
  omega

/-- A list of decimal digit codes survives `dropWhile isWsB` and
`takeWhile isDigitB` unchanged. -/
theorem stoiM_of_digits {l : List Nat} (hne : l ≠ [])
    (hd : ∀ c ∈ l, 48 ≤ c ∧ c ≤ 57) : stoiM l = .ok (decVal l : Int) := by
  obtain ⟨c, t, rfl⟩ : ∃ c t, l = c :: t := by
    cases l with
    | nil => exact absurd rfl hne
    | cons c t => exact ⟨c, t, rfl⟩
  have hc := hd c (by simp)
  have hdrop : (c :: t).dropWhile isWsB = c :: t := by
    rw [List.dropWhile_cons, not_isWsB_of_digit hc.1]
    simp
  have htake : (c :: t).takeWhile isDigitB = c :: t := by
    rw [List.takeWhile_eq_self_iff]
    intro x hx
    exact isDigitB_of_digit (hd x hx).1 (hd x hx).2
  have h45 : ¬c = 45 := by omega
  have h43 : ¬c = 43 := by omega
  simp only [stoiM, hdrop, h45, h43, if_false, htake]
  simp

theorem stoiM_natRepr (n : Nat) : stoiM (natRepr n) = .ok (n : Int) := by
  rw [stoiM_of_digits (natRepr_ne_nil n) (fun c hc => mem_natRepr hc), decVal_natRepr]

/-! ## Basic lemmas: record encoding and parsing -/

theorem pad80_length {l : List Nat} : (pad80 l).length = 80 := by
  simp only [pad80, List.length_append, List.length_take, List.length_replicate]
  omega

theorem mkRecord_length {k v : List Nat} : (mkRecord k v).length = 80 := pad80_length

theorem endRecord_length : endRecord.length = 80 := pad80_length

theorem pad80_of_le {l : List Nat} (h : l.length ≤ 80) :
    pad80 l = l ++ List.replicate (80 - l.length) 32 := by
  rw [pad80, List.take_of_length_le h]

theorem eraseAllB_append (c : Nat) (a b : List Nat) :
    eraseAllB c (a ++ b) = eraseAllB c a ++ eraseAllB c b := by
  simp [eraseAllB]

theorem eraseAllB_of_ne {c : Nat} {l : List Nat} (h : ∀ a ∈ l, a ≠ c) :
    eraseAllB c l = l := by
  apply List.filter_eq_self.mpr
  intro a ha
  simpa using h a ha

theorem eraseAllB_replicate (c k a : Nat) (h : a = c) :
    eraseAllB c (List.replicate k a) = [] := by
  subst h
  simp [eraseAllB, List.filter_eq_nil_iff]

/-- `dropWhile isWsB` only removes characters that `eraseAllB 32` would remove
anyway, provided the only whitespace present is the space character. -/
theorem eraseAll32_dropWhileWs {l : List Nat}
    (h : ∀ c ∈ l, isWsB c = true → c = 32) :
    eraseAllB 32 (l.dropWhile isWsB) = eraseAllB 32 l := by
  induction l with
  | nil => rfl
  | cons c t ih =>
    by_cases hc : isWsB c = true
    · have hc32 : c = 32 := h c (by simp) hc
      rw [List.dropWhile_cons, if_pos hc, ih (fun x hx => h x (by simp [hx]))]
      subst hc32
      simp [eraseAllB]
    · rw [List.dropWhile_cons, if_neg hc]

theorem eraseAll32_trimList {l : List Nat}
    (h : ∀ c ∈ l, isWsB c = true → c = 32) :
    eraseAllB 32 (trimList l) = eraseAllB 32 l := by
  have h1 : ∀ c ∈ (l.dropWhile isWsB).reverse, isWsB c = true → c = 32 := by
    intro c hc hw
    rw [List.mem_reverse] at hc
    exact h c ((List.dropWhile_sublist isWsB).mem hc) hw
  calc eraseAllB 32 (trimList l)
      = (eraseAllB 32 ((l.dropWhile isWsB).reverse.dropWhile isWsB)).reverse := by
        unfold trimList eraseAllB
        rw [List.filter_reverse]
    _ = (eraseAllB 32 ((l.dropWhile isWsB).reverse)).reverse := by
        rw [eraseAll32_dropWhileWs h1]
    _ = eraseAllB 32 (l.dropWhile isWsB) := by
        unfold eraseAllB
        rw [List.filter_reverse, List.reverse_reverse]
    _ = eraseAllB 32 l := eraseAll32_dropWhileWs h

/-- The keyword side of `parseRecord` strips a trailing fragment of `" = "`
from the key. -/
theorem parseKey_of_wf {k tj : List Nat}
    (hk : ∀ c ∈ k, isWsB c = false ∧ c ≠ 61)
    (htj : ∀ c ∈ tj, c = 32 ∨ c = 61) :
    eraseAllB 61 (eraseAllB 32 (trimList (k ++ tj))) = k := by
  have hall : ∀ c ∈ k ++ tj, isWsB c = true → c = 32 := by
    intro c hc hw
    rcases List.mem_append.mp hc with h | h
    · exact absurd hw (by simp [(hk c h).1])
    · rcases htj c h with h32 | h61
      · exact h32
      · subst h61
        simp [isWsB] at hw
  have hk32 : eraseAllB 32 k = k := by
    apply eraseAllB_of_ne
    intro a ha h32
    have := (hk a ha).1
    subst h32
    simp [isWsB] at this
  have hk61 : eraseAllB 61 k = k := eraseAllB_of_ne (fun a ha => (hk a ha).2)
  have htj0 : eraseAllB 61 (eraseAllB 32 tj) = [] := by
    unfold eraseAllB
    rw [List.filter_filter]
    apply List.filter_eq_nil_iff.mpr
    intro a ha
    rcases htj a ha with h | h <;> subst h <;> simp
  rw [eraseAll32_trimList hall, eraseAllB_append, hk32, eraseAllB_append, hk61,
    htj0, List.append_nil]

/-- The value side of `parseRecord` strips the leading fragment of `" = "`
and the space padding around the value. -/
theorem parseVal_of_wf {sj v : List Nat} {m : Nat}
    (hsj : ∀ c ∈ sj, c = 32 ∨ c = 61)
    (hv : ∀ c ∈ v, c ≠ 32 ∧ c ≠ 61) :
    eraseAllB 61 (eraseAllB 32 (sj ++ (v ++ List.replicate m 32))) = v := by
  have hsj0 : eraseAllB 61 (eraseAllB 32 sj) = [] := by
    unfold eraseAllB
    rw [List.filter_filter]
    apply List.filter_eq_nil_iff.mpr
    intro a ha
    rcases hsj a ha with h | h <;> subst h <;> simp
  have hv32 : eraseAllB 32 v = v := eraseAllB_of_ne (fun a ha => (hv a ha).1)
  have hv61 : eraseAllB 61 v = v := eraseAllB_of_ne (fun a ha => (hv a ha).2)
  have hrep : eraseAllB 32 (List.replicate m 32) = [] := eraseAllB_replicate 32 m 32 rfl
  simp only [eraseAllB_append, hrep, hv32, hsj0, hv61]
  simp [eraseAllB]

/-- Parsing the record the writer emits for a 5-to-7-byte keyword recovers the
keyword and the value. -/
theorem parseRecord_mkRecord {k v : List Nat}
    (hk5 : 5 ≤ k.length) (hk7 : k.length ≤ 7)
    (hk : ∀ c ∈ k, isWsB c = false ∧ c ≠ 61)
    (hv : ∀ c ∈ v, c ≠ 32 ∧ c ≠ 61 ∧ c ≠ 47)
    (hvlen : v.length ≤ 28) :
    parseRecord (mkRecord k v) = (k, v) := by
  have hlen : (k ++ sepEq ++ v).length = k.length + 3 + v.length := by
    simp [sepEq]
    omega
  have hle : (k ++ sepEq ++ v).length ≤ 80 := by
    rw [hlen]; omega
  have hrec : mkRecord k v =
      k ++ (sepEq ++ (v ++ List.replicate (80 - (k.length + 3 + v.length)) 32)) := by
    rw [mkRecord, pad80_of_le hle, hlen]
    simp [List.append_assoc]
  -- the truncated separator fragments
  set j := 8 - k.length with hj
  have hjb : 1 ≤ j ∧ j ≤ 3 := by omega
  have htake8 : (mkRecord k v).take 8 = k ++ sepEq.take j := by
    rw [hrec, List.take_append_eq_append_take,
      List.take_of_length_le (by omega), List.take_append_eq_append_take]
    have h1 : 8 - k.length - sepEq.length = 0 := by simp [sepEq]; omega
    rw [h1, List.take_zero, List.append_nil]
  have hdrop8 : (mkRecord k v).drop 8 =
      sepEq.drop j ++ (v ++ List.replicate (80 - (k.length + 3 + v.length)) 32) := by
    rw [hrec, List.drop_append_eq_append_drop,
      List.drop_eq_nil_of_le (by omega), List.drop_append_eq_append_drop]
    have h1 : 8 - k.length - sepEq.length = 0 := by simp [sepEq]; omega
    rw [h1, List.drop_zero, List.nil_append]
  have hsjmem : ∀ c ∈ sepEq.take j ++ sepEq.drop j, c = 32 ∨ c = 61 := by
    intro c hc
    rw [List.take_append_drop] at hc
    simp [sepEq] at hc
    omega
  have hsjtake : ∀ c ∈ sepEq.take j, c = 32 ∨ c = 61 := fun c hc =>
    hsjmem c (List.mem_append.mpr (Or.inl hc))
  have hsjdrop : ∀ c ∈ sepEq.drop j, c = 32 ∨ c = 61 := fun c hc =>
    hsjmem c (List.mem_append.mpr (Or.inr hc))
  have hsjdlen : (sepEq.drop j).length = 3 - j := by
    simp [sepEq]
  -- the 30-byte value slice
  have hv0 : ((mkRecord k v).drop 8).take 30 =
      sepEq.drop j ++ (v ++ List.replicate (30 - (sepEq.drop j).length - v.length) 32) := by
    rw [hdrop8, List.take_append_eq_append_take,
      List.take_of_length_le (by omega), List.take_append_eq_append_take,
      List.take_of_length_le (by omega), List.take_replicate]
    congr 3
    omega
  have hv0mem : ∀ c ∈ ((mkRecord k v).drop 8).take 30,
      (c = 32 ∨ c = 61) ∨ c ∈ v := by
    intro c hc
    rw [hv0] at hc
    rcases List.mem_append.mp hc with h | h
    · exact Or.inl (hsjdrop c h)
    · rcases List.mem_append.mp h with h | h
      · exact Or.inr h
      · exact Or.inl (Or.inl (List.eq_of_mem_replicate h))
  have hfind : (((mkRecord k v).drop 8).take 30).findIdx? (fun c => c == 47) = none := by
    apply List.findIdx?_eq_none_iff.mpr
    intro x hx
    rcases hv0mem x hx with h | h
    · rcases h with h | h <;> subst h <;> simp
    · simp [(hv x h).2.2]
  simp only [parseRecord, hfind, Prod.mk.injEq]
  constructor
  · rw [htake8]
    exact parseKey_of_wf hk hsjtake
  · rw [hv0]
    exact parseVal_of_wf hsjdrop (fun c hc => ⟨(hv c hc).1, (hv c hc).2.1⟩)

/-! ## Basic lemmas: products and the offset loop -/

theorem listProd_foldl_acc (l : List Nat) (acc : Nat) :
    l.foldl (fun a b => a * b) acc = acc * listProd l := by
  induction l generalizing acc with
  | nil => simp [listProd]
  | cons x t ih =>
    rw [listProd, List.foldl_cons, List.foldl_cons, ih, ih (1 * x)]
    ring

theorem listProd_cons (a : Nat) (l : List Nat) :
    listProd (a :: l) = a * listProd l := by
  rw [listProd, List.foldl_cons, listProd_foldl_acc]
  ring

theorem listProd_nil : listProd [] = 1 := rfl

theorem listProd_append (a b : List Nat) :
    listProd (a ++ b) = listProd a * listProd b := by
  induction a with
  | nil => simp [listProd_nil]
  | cons x t ih => rw [List.cons_append, listProd_cons, listProd_cons, ih]; ring

theorem listProd_reverse (l : List Nat) : listProd l.reverse = listProd l := by
  induction l with
  | nil => rfl
  | cons x t ih =>
    rw [List.reverse_cons, listProd_append, listProd_cons, ih, listProd_cons,
      listProd_nil]
    ring

theorem listProd_pos {l : List Nat} (h : ∀ n ∈ l, 0 < n) : 0 < listProd l := by
  induction l with
  | nil => simp [listProd_nil]
  | cons x t ih =>
    rw [listProd_cons]
    exact Nat.mul_pos (h x (by simp)) (ih (fun n hn => h n (by simp [hn])))

theorem sizeOfT_pos (t : FitsType) : 0 < sizeOfT t := by cases t <;> simp [sizeOfT]

/-- Zero indices contribute nothing to the offset loop. -/
theorem calcLoop_zeros (r : List Nat) (k : Nat) :
    ofitsCalcOffset.calcLoop r (List.replicate k 0) = 0 := by
  induction k generalizing r with
  | zero => rfl
  | succ k ih =>
    rw [List.replicate_succ, ofitsCalcOffset.calcLoop, ih]
    ring

/-- The element offset the source computes for the maximal (or any) first
index with all other indices zero: `i₀ · Π_{j=2..naxis} n_j`. -/
theorem calcOffset_first_axis {n₁ : Nat} {rest : List Nat} {s i0 k : Nat}
    (h0 : i0 ≤ n₁) (hk : k = rest.length) :
    ofitsCalcOffset (n₁ :: rest) s (i0 :: List.replicate k 0) =
      .ok (i0 * listProd rest * s) := by
  rw [ofitsCalcOffset, if_neg (by omega)]
  rw [if_neg (by simp [hk])]
  congr 1
  rw [ofitsCalcOffset.calcLoop, calcLoop_zeros]
  have : ((n₁ :: rest).reverse).dropLast = rest.reverse := by
    rw [List.reverse_cons, List.dropLast_concat]
  rw [this, listProd_reverse]
  ring

/-! ## Basic lemmas: writer-state bookkeeping -/

theorem writeHeaderNE_ok {f f' : FileT} {h h' : OHdu} {k v : List Nat}
    (hw : writeHeaderNE f h k v = .ok (f', h')) :
    h' = { h with headersWritten := h.headersWritten + 1 } ∧
    f' = writeAt f (h.headersWritten * 80 + h.offset) (mkRecord k v) ∧
    h.headersWritten ≤ 35 := by
  unfold writeHeaderNE at hw
  split at hw
  · simp only [Except.ok.injEq, Prod.mk.injEq] at hw
    exact ⟨hw.2.symm, hw.1.symm, by omega⟩
  · exact absurd hw (by simp)

theorem writeNaxisHeaders_ok : ∀ {axes : List Nat} {i : Nat} {f f' : FileT}
    {h h' : OHdu},
    writeNaxisHeaders f h axes i = .ok (f', h') →
    h' = { h with headersWritten := h.headersWritten + axes.length }
  | [], i, f, f', h, h', hw => by
    simp only [writeNaxisHeaders, Except.ok.injEq, Prod.mk.injEq] at hw
    simp [← hw.2]
  | n :: rest, i, f, f', h, h', hw => by
    rw [writeNaxisHeaders] at hw
    simp only [bind, Except.bind] at hw
    split at hw
    · exact absurd hw (by simp)
    · rename_i p hp
      obtain ⟨h1, _, _⟩ := writeHeaderNE_ok hp
      have := writeNaxisHeaders_ok hw
      rw [this, h1]
      simp only [List.length_cons]
      congr 1
      omega

/-- The HDU descriptor a successful constructor run produces. -/
theorem mkOHdu_state {f f' : FileT} {t : FitsType} {axes : List Nat} {off : Nat}
    {h : OHdu} (hmk : mkOHdu f t axes off = .ok (f', h)) :
    h = { elemType := t, naxis := axes, headersWritten := axes.length + 4,
          offset := off, dataBlockSize := listProd axes * sizeOfT t } := by
  simp only [mkOHdu, bind, Except.bind] at hmk
  split at hmk
  · exact absurd hmk (by simp)
  rename_i p1 h1
  split at hmk
  · exact absurd hmk (by simp)
  rename_i p2 h2
  split at hmk
  · exact absurd hmk (by simp)
  rename_i p3 h3
  split at hmk
  · exact absurd hmk (by simp)
  rename_i p4 h4
  split at hmk
  · exact absurd hmk (by simp)
  rename_i p5 h5
  simp only [Except.ok.injEq, Prod.mk.injEq] at hmk
  obtain ⟨e1, _, _⟩ := writeHeaderNE_ok h1
  obtain ⟨e2, _, _⟩ := writeHeaderNE_ok h2
  obtain ⟨e3, _, _⟩ := writeHeaderNE_ok h3
  have e4 := writeNaxisHeaders_ok h4
  obtain ⟨e5, _, _⟩ := writeHeaderNE_ok h5
  rw [← hmk.2, e5, e4, e3, e2, e1]
  simp
  try omega

/-- `write_data`, given the offset its index computes. -/
theorem writeDataOp_spec {f : FileT} {h : OHdu} {index B : List Nat} {co : Nat}
    (hco : ofitsCalcOffset h.naxis (sizeOfT h.elemType) index = .ok co) :
    writeDataOp f h index B =
      if B.length + co > h.dataBlockSize then .error .outOfBounds
      else .ok (writeAt f (h.offset + 2880 + co) B, B.length) := by
  simp only [writeDataOp, bind, Except.bind, hco]

/-! ## Basic lemmas: the layout planner -/

theorem planOffsets_length (s : List (FitsType × List Nat)) (cur : Nat) :
    (planOffsets s cur).length = s.length := by
  induction s generalizing cur with
  | nil => rfl
  | cons e rest ih =>
    obtain ⟨t, axes⟩ := e
    rw [planOffsets, List.length_cons, List.length_cons, ih]

theorem planOffsets_zero (s : List (FitsType × List Nat)) (cur : Nat) :
    (planOffsets s cur)[0]? = if s.length = 0 then none else some cur := by
  cases s with
  | nil => rfl
  | cons e rest =>
    obtain ⟨t, axes⟩ := e
    simp [planOffsets]

theorem planOffsets_succ : ∀ (s : List (FitsType × List Nat)) (cur i : Nat)
    (t : FitsType) (axes : List Nat), s[i]? = some (t, axes) → i + 1 < s.length →
    (planOffsets s cur)[i + 1]? =
      ((planOffsets s cur)[i]?).map (fun o => o + hduSpan t axes)
  | [], cur, i, t, axes, h, h2 => by simp at h
  | e :: rest, cur, 0, t, axes, h, h2 => by
    obtain ⟨t', axes'⟩ := e
    simp only [List.getElem?_cons_zero, Option.some.injEq, Prod.mk.injEq] at h
    obtain ⟨rfl, rfl⟩ := h
    rw [planOffsets]
    simp only [List.getElem?_cons_succ, List.getElem?_cons_zero, Option.map_some]
    rw [planOffsets_zero]
    have : rest.length ≠ 0 := by
      simp only [List.length_cons] at h2
      omega
    simp [this]
  | e :: rest, cur, i + 1, t, axes, h, h2 => by
    obtain ⟨t', axes'⟩ := e
    simp only [List.getElem?_cons_succ] at h
    rw [planOffsets]
    simp only [List.getElem?_cons_succ]
    exact planOffsets_succ rest _ i t axes h (by simp at h2; omega)

/-! ## Write-footprint lemmas -/

theorem writesWithin_refl (f : FileT) (lo hi : Nat) : WritesWithin f f lo hi :=
  ⟨fun _ _ _ _ h => h, le_refl _, le_max_left _ _⟩

theorem writesWithin_writeAt (f : FileT) (pos : Nat) (d : List Nat) (lo hi : Nat)
    (h1 : lo ≤ pos) (h2 : pos + d.length ≤ hi) :
    WritesWithin f (writeAt f pos d) lo hi := by
  refine ⟨fun pos' n r hd hr => readBytes_writeAt_disjoint pos d (by omega) hr,
    fileSize_le_writeAt _ _ _, ?_⟩
  rw [fileSize_writeAt]
  omega

theorem writesWithin_trans {f1 f2 f3 : FileT} {lo hi : Nat}
    (h : WritesWithin f1 f2 lo hi) (h' : WritesWithin f2 f3 lo hi) :
    WritesWithin f1 f3 lo hi := by
  refine ⟨fun pos n r hd hr => h'.1 pos n r hd (h.1 pos n r hd hr),
    le_trans h.2.1 h'.2.1, ?_⟩
  have := h.2.2
  have := h'.2.2
  omega

theorem writesWithin_mono {f f' : FileT} {lo hi lo' hi' : Nat}
    (h : WritesWithin f f' lo hi) (hlo : lo' ≤ lo) (hhi : hi ≤ hi') :
    WritesWithin f f' lo' hi' := by
  refine ⟨fun pos n r hd hr => h.1 pos n r (by omega) hr, h.2.1, ?_⟩
  have := h.2.2
  omega

theorem readBytes_writesWithin {f f' : FileT} {lo hi pos n : Nat} {r : List Nat}
    (h : WritesWithin f f' lo hi) (hd : pos + n ≤ lo ∨ hi ≤ pos)
    (hr : readBytes f pos n = some r) : readBytes f' pos n = some r :=
  h.1 pos n r hd hr

/-! ## The constructor's writes -/

theorem writeNaxisHeaders_file : ∀ {axes : List Nat} {i : Nat} {f f' : FileT}
    {h h' : OHdu}, writeNaxisHeaders f h axes i = .ok (f', h') →
    WritesWithin f f' (h.offset + 80 * h.headersWritten)
      (h.offset + 80 * (h.headersWritten + axes.length)) ∧
    ∀ k, k < axes.length →
      readBytes f' (h.offset + 80 * (h.headersWritten + k)) 80 =
        some (mkRecord (kNAXIS ++ natRepr (i + k)) (natRepr (axes.getD k 0)))
  | [], i, f, f', h, h', hw => by
    simp only [writeNaxisHeaders, Except.ok.injEq, Prod.mk.injEq] at hw
    rw [← hw.1]
    exact ⟨writesWithin_refl f _ _, fun k hk => absurd hk (by simp)⟩
  | n :: rest, i, f, f', h, h', hw => by
    rw [writeNaxisHeaders] at hw
    simp only [bind, Except.bind] at hw
    split at hw
    · exact absurd hw (by simp)
    · rename_i p hp
      obtain ⟨hph, hpf, hpc⟩ := writeHeaderNE_ok hp
      obtain ⟨ihW, ihS⟩ := writeNaxisHeaders_file hw
      rw [hph] at ihW ihS
      simp only at ihW ihS
      have hpos : h.headersWritten * 80 + h.offset =
          h.offset + 80 * h.headersWritten := by ring
      have hW1 : WritesWithin f p.1 (h.offset + 80 * h.headersWritten)
          (h.offset + 80 * (h.headersWritten + (n :: rest).length)) := by
        rw [hpf, hpos]
        exact writesWithin_writeAt _ _ _ _ _ (le_refl _)
          (by rw [mkRecord_length]; simp; omega)
      have hW2 : WritesWithin p.1 f' (h.offset + 80 * h.headersWritten)
          (h.offset + 80 * (h.headersWritten + (n :: rest).length)) := by
        refine writesWithin_mono ihW (by omega) (by simp; omega)
      refine ⟨writesWithin_trans hW1 hW2, ?_⟩
      intro k hk
      cases k with
      | zero =>
        have hr0 : readBytes p.1 (h.offset + 80 * (h.headersWritten + 0)) 80 =
            some (mkRecord (kNAXIS ++ natRepr (i + 0)) (natRepr n)) := by
          rw [hpf, hpos]
          have := readBytes_writeAt_self f (h.offset + 80 * h.headersWritten)
            (mkRecord (kNAXIS ++ natRepr i) (natRepr n))
          rw [mkRecord_length] at this
          simpa using this
        have := readBytes_writesWithin ihW (by left; omega) hr0
        simpa using this
      | succ k =>
        have := ihS k (by simpa using hk)
        have harith : h.offset + 80 * (h.headersWritten + 1 + k) =
            h.offset + 80 * (h.headersWritten + (k + 1)) := by ring
        rw [harith] at this
        have harith2 : i + 1 + k = i + (k + 1) := by ring
        rw [harith2] at this
        simpa using this

/-- The constructor's effect on the file: its writes stay inside the header
block at `off`, the mandatory records land in slots `0 … naxis+3`, `END` in
slot `naxis+4`, and the file now covers all of them. -/
theorem mkOHdu_file {f f' : FileT} {t : FitsType} {axes : List Nat} {off : Nat}
    {h : OHdu} (hmk : mkOHdu f t axes off = .ok (f', h)) :
    WritesWithin f f' off (off + 80 * (axes.length + 5)) ∧
    (∀ k, k < axes.length + 4 →
      readBytes f' (off + 80 * k) 80 = some (mandRecord t axes k)) ∧
    readBytes f' (off + 80 * (axes.length + 4)) 80 = some endRecord ∧
    off + 80 * (axes.length + 4) + 80 ≤ fileSize f' := by
  simp only [mkOHdu, bind, Except.bind] at hmk
  split at hmk
  · exact absurd hmk (by simp)
  rename_i p1 h1
  split at hmk
  · exact absurd hmk (by simp)
  rename_i p2 h2
  split at hmk
  · exact absurd hmk (by simp)
  rename_i p3 h3
  split at hmk
  · exact absurd hmk (by simp)
  rename_i p4 h4
  split at hmk
  · exact absurd hmk (by simp)
  rename_i p5 h5
  simp only [Except.ok.injEq, Prod.mk.injEq] at hmk
  obtain ⟨hf', hh⟩ := hmk
  obtain ⟨e1, w1, c1⟩ := writeHeaderNE_ok h1
  dsimp only at e1 w1
  obtain ⟨e2, w2, c2⟩ := writeHeaderNE_ok h2
  rw [e1] at w2 e2
  dsimp only at e2 w2
  obtain ⟨e3, w3, c3⟩ := writeHeaderNE_ok h3
  rw [e2] at w3 e3
  dsimp only at e3 w3
  obtain ⟨loopW, loopS⟩ := writeNaxisHeaders_file h4
  have e4 := writeNaxisHeaders_ok h4
  rw [e3] at loopW loopS e4
  dsimp only at loopW loopS e4
  obtain ⟨e5, w5, c5⟩ := writeHeaderNE_ok h5
  rw [e4] at w5 e5
  dsimp only at e5 w5
  rw [← hf', writeEndRec, e5]
  dsimp only
  set L := axes.length with hL
  -- canonical positions
  have pw1 : (0 : Nat) * 80 + off = off + 80 * 0 := by ring
  have pw2 : (0 + 1) * 80 + off = off + 80 * 1 := by ring
  have pw3 : (0 + 1 + 1) * 80 + off = off + 80 * 2 := by ring
  have pw5 : (0 + 1 + 1 + 1 + L) * 80 + off = off + 80 * (3 + L) := by ring
  have pw6 : (0 + 1 + 1 + 1 + L + 1) * 80 + off = off + 80 * (4 + L) := by ring
  rw [pw1] at w1
  rw [pw2] at w2
  rw [pw3] at w3
  rw [pw5] at w5
  rw [pw6]
  -- backwards accumulation of the write footprints
  have W6 : WritesWithin p5.1
      (writeAt p5.1 (off + 80 * (4 + L)) endRecord) (off + 80 * (4 + L))
      (off + 80 * (L + 5)) := by
    apply writesWithin_writeAt _ _ _ _ _ (le_refl _)
    rw [endRecord_length]
    omega
  have W5 : WritesWithin p4.1
      (writeAt p5.1 (off + 80 * (4 + L)) endRecord) (off + 80 * (3 + L))
      (off + 80 * (L + 5)) := by
    refine writesWithin_trans ?_ (writesWithin_mono W6 (by omega) (le_refl _))
    rw [w5]
    apply writesWithin_writeAt _ _ _ _ _ (le_refl _)
    rw [mkRecord_length]
    omega
  have W4 : WritesWithin p3.1
      (writeAt p5.1 (off + 80 * (4 + L)) endRecord) (off + 80 * 3)
      (off + 80 * (L + 5)) := by
    refine writesWithin_trans ?_ (writesWithin_mono W5 (by omega) (le_refl _))
    refine writesWithin_mono ?_ (le_refl _) (show off + 80 * (3 + L) ≤ _ by omega)
    have := loopW
    have harith : off + 80 * (0 + 1 + 1 + 1) = off + 80 * 3 := by ring
    have harith2 : off + 80 * (0 + 1 + 1 + 1 + L) = off + 80 * (3 + L) := by ring
    rw [harith, harith2] at this
    exact this
  have W3 : WritesWithin p2.1
      (writeAt p5.1 (off + 80 * (4 + L)) endRecord) (off + 80 * 2)
      (off + 80 * (L + 5)) := by
    refine writesWithin_trans ?_ (writesWithin_mono W4 (by omega) (le_refl _))
    rw [w3]
    apply writesWithin_writeAt _ _ _ _ _ (le_refl _)
    rw [mkRecord_length]
    omega
  have W2 : WritesWithin p1.1
      (writeAt p5.1 (off + 80 * (4 + L)) endRecord) (off + 80 * 1)
      (off + 80 * (L + 5)) := by
    refine writesWithin_trans ?_ (writesWithin_mono W3 (by omega) (le_refl _))
    rw [w2]
    apply writesWithin_writeAt _ _ _ _ _ (le_refl _)
    rw [mkRecord_length]
    omega
  have W1 : WritesWithin f
      (writeAt p5.1 (off + 80 * (4 + L)) endRecord) off (off + 80 * (L + 5)) := by
    refine writesWithin_trans ?_ (writesWithin_mono W2 (by omega) (le_refl _))
    rw [w1]
    apply writesWithin_writeAt _ _ _ _ _ (by omega)
    rw [mkRecord_length]
    omega
  -- slot contents
  have selfRead : ∀ (g : FileT) (pos : Nat) (k v : List Nat),
      readBytes (writeAt g pos (mkRecord k v)) pos 80 = some (mkRecord k v) := by
    intro g pos k v
    have := readBytes_writeAt_self g pos (mkRecord k v)
    rwa [mkRecord_length] at this
  have slot0 : readBytes (writeAt p5.1 (off + 80 * (4 + L)) endRecord)
      (off + 80 * 0) 80 = some (mkRecord kSIMPLE kT) := by
    refine readBytes_writesWithin W2 (by left; omega) ?_
    rw [w1]
    exact selfRead f (off + 80 * 0) kSIMPLE kT
  have slot1 : readBytes (writeAt p5.1 (off + 80 * (4 + L)) endRecord)
      (off + 80 * 1) 80 = some (mkRecord kBITPIX (bitpixRepr t)) := by
    refine readBytes_writesWithin W3 (by left; omega) ?_
    rw [w2]
    exact selfRead p1.1 (off + 80 * 1) kBITPIX (bitpixRepr t)
  have slot2 : readBytes (writeAt p5.1 (off + 80 * (4 + L)) endRecord)
      (off + 80 * 2) 80 = some (mkRecord kNAXIS (natRepr L)) := by
    refine readBytes_writesWithin W4 (by left; omega) ?_
    rw [w3]
    exact selfRead p2.1 (off + 80 * 2) kNAXIS (natRepr L)
  have slotN : ∀ k, k < L → readBytes
      (writeAt p5.1 (off + 80 * (4 + L)) endRecord) (off + 80 * (3 + k)) 80 =
      some (mkRecord (kNAXIS ++ natRepr (k + 1)) (natRepr (axes.getD k 0))) := by
    intro k hk
    have hs := loopS k hk
    have harith : off + 80 * (0 + 1 + 1 + 1 + k) = off + 80 * (3 + k) := by ring
    have harith2 : (1 : Nat) + k = k + 1 := by ring
    rw [harith, harith2] at hs
    refine readBytes_writesWithin W5 (by left; omega) ?_
    exact hs
  have slotE : readBytes (writeAt p5.1 (off + 80 * (4 + L)) endRecord)
      (off + 80 * (3 + L)) 80 = some (mkRecord kEXTEND kT) := by
    refine readBytes_writesWithin W6 (by left; omega) ?_
    rw [w5]
    exact selfRead p4.1 (off + 80 * (3 + L)) kEXTEND kT
  have slotEnd : readBytes (writeAt p5.1 (off + 80 * (4 + L)) endRecord)
      (off + 80 * (4 + L)) 80 = some endRecord := by
    have := readBytes_writeAt_self p5.1 (off + 80 * (4 + L)) endRecord
    rwa [endRecord_length] at this
  refine ⟨W1, ?_, ?_, ?_⟩
  · intro k hk
    rcases Nat.lt_or_ge k 3 with h3 | h3
    · interval_cases k
      · simpa [mandRecord] using slot0
      · simpa [mandRecord] using slot1
      · simpa [mandRecord] using slot2
    · rcases Nat.lt_or_ge k (3 + L) with h4 | h4
      · have hkL : k - 3 < L := by omega
        have := slotN (k - 3) hkL
        have harith : 3 + (k - 3) = k := by omega
        have harith2 : k - 3 + 1 = k - 2 := by omega
        rw [harith, harith2] at this
        have hmr : mandRecord t axes k =
            mkRecord (kNAXIS ++ natRepr (k - 2)) (natRepr (axes.getD (k - 3) 0)) := by
          rw [mandRecord, if_neg (by omega), if_neg (by omega), if_neg (by omega),
            if_pos (by omega)]
        rw [hmr]
        exact this
      · have hkE : k = 3 + L := by omega
        subst hkE
        have hmr : mandRecord t axes (3 + L) = mkRecord kEXTEND kT := by
          rw [mandRecord, if_neg (by omega), if_neg (by omega), if_neg (by omega),
            if_neg (by omega)]
        rw [hmr]
        exact slotE
  · have harith : L + 4 = 4 + L := by ring
    rw [harith]
    exact slotEnd
  · rw [fileSize_writeAt, endRecord_length]
    omega

/-! ## Planner arithmetic -/

theorem hduSpan_mod (t : FitsType) (axes : List Nat) : hduSpan t axes % 2880 = 0 := by
  have := roundOffset_mod (listProd axes * sizeOfT t)
  rw [hduSpan]
  omega

theorem hduSpan_ge (t : FitsType) (axes : List Nat) :
    2880 + listProd axes * sizeOfT t ≤ hduSpan t axes := by
  have := le_roundOffset (listProd axes * sizeOfT t)
  rw [hduSpan]
  omega

theorem planOffsetAt_zero (schema : List (FitsType × List Nat)) :
    planOffsetAt schema 0 = 0 := by
  cases schema with
  | nil => rfl
  | cons e rest => obtain ⟨t, axes⟩ := e; rfl

theorem planOffsets_entry_mod : ∀ (s : List (FitsType × List Nat)) (cur j o : Nat),
    (planOffsets s cur)[j]? = some o → o % 2880 = cur % 2880
  | [], cur, j, o, h => by simp [planOffsets] at h
  | e :: rest, cur, 0, o, h => by
    obtain ⟨t, axes⟩ := e
    simp [planOffsets] at h
    omega
  | e :: rest, cur, j + 1, o, h => by
    obtain ⟨t, axes⟩ := e
    simp only [planOffsets, List.getElem?_cons_succ] at h
    have := planOffsets_entry_mod rest (cur + hduSpan t axes) j o h
    have hm := hduSpan_mod t axes
    omega

theorem planOffsets_entry_ge : ∀ (s : List (FitsType × List Nat)) (cur j o : Nat),
    (planOffsets s cur)[j]? = some o → cur ≤ o
  | [], cur, j, o, h => by simp [planOffsets] at h
  | e :: rest, cur, 0, o, h => by
    obtain ⟨t, axes⟩ := e
    simp [planOffsets] at h
    omega
  | e :: rest, cur, j + 1, o, h => by
    obtain ⟨t, axes⟩ := e
    simp only [planOffsets, List.getElem?_cons_succ] at h
    have := planOffsets_entry_ge rest (cur + hduSpan t axes) j o h
    omega

theorem planEnd_ge : ∀ (s : List (FitsType × List Nat)) (cur : Nat),
    cur ≤ planEnd s cur
  | [], cur => le_refl cur
  | (t, axes) :: rest, cur =>
    le_trans (by omega) (planEnd_ge rest (cur + hduSpan t axes))

/-- Every planned HDU (with its whole span) fits below the planned end. -/
theorem planOffsets_entry_le_planEnd : ∀ (s : List (FitsType × List Nat))
    (cur j o : Nat), (planOffsets s cur)[j]? = some o →
    ∃ t axes, s[j]? = some (t, axes) ∧ o + hduSpan t axes ≤ planEnd s cur
  | [], cur, j, o, h => by simp [planOffsets] at h
  | e :: rest, cur, 0, o, h => by
    obtain ⟨t, axes⟩ := e
    simp [planOffsets] at h
    subst h
    refine ⟨t, axes, by simp, ?_⟩
    rw [planEnd]
    exact planEnd_ge rest (cur + hduSpan t axes)
  | e :: rest, cur, j + 1, o, h => by
    obtain ⟨t, axes⟩ := e
    simp only [planOffsets, List.getElem?_cons_succ] at h
    obtain ⟨t', axes', h1, h2⟩ :=
      planOffsets_entry_le_planEnd rest (cur + hduSpan t axes) j o h
    exact ⟨t', axes', by simpa using h1, by rwa [planEnd]⟩

theorem planOffsets_entry_mono : ∀ (s : List (FitsType × List Nat))
    (cur j k o o' : Nat), j ≤ k → (planOffsets s cur)[j]? = some o →
    (planOffsets s cur)[k]? = some o' → o ≤ o'
  | [], cur, j, k, o, o', hjk, hj, hk => by simp [planOffsets] at hj
  | e :: rest, cur, 0, 0, o, o', hjk, hj, hk => by
    obtain ⟨t, axes⟩ := e
    simp [planOffsets] at hj hk
    omega
  | e :: rest, cur, 0, k + 1, o, o', hjk, hj, hk => by
    obtain ⟨t, axes⟩ := e
    simp only [planOffsets, List.getElem?_cons_zero, Option.some.injEq] at hj
    simp only [planOffsets, List.getElem?_cons_succ] at hk
    have := planOffsets_entry_ge rest (cur + hduSpan t axes) k o' hk
    omega
  | e :: rest, cur, j + 1, k + 1, o, o', hjk, hj, hk => by
    obtain ⟨t, axes⟩ := e
    simp only [planOffsets, List.getElem?_cons_succ] at hj hk
    exact planOffsets_entry_mono rest _ j k o o' (by omega) hj hk
  | e :: rest, cur, j + 1, 0, o, o', hjk, hj, hk => by omega

/-! ## Invariant plumbing -/

theorem hduInv_mono_US {f : FileT} {US US' : List Nat → Prop} {t : FitsType}
    {axes : List Nat} {off : Nat} {h : OHdu} (hU : ∀ r, US r → US' r)
    (hi : HduInv f US t axes off h) : HduInv f US' t axes off h :=
  ⟨hi.het, hi.hax, hi.hoff, hi.hdbs, hi.hcl, hi.hcu, hi.hmand,
    fun k h1 h2 => (hi.huser k h1 h2).imp (fun r hr => ⟨hr.1, hU r hr.2⟩),
    hi.hend⟩

/-- An HDU's header invariant survives writes that avoid its header block. -/
theorem hduInv_preserve {f f' : FileT} {lo hi : Nat} {US : List Nat → Prop}
    {t : FitsType} {axes : List Nat} {off : Nat} {h : OHdu}
    (hW : WritesWithin f f' lo hi) (hd : off + 2880 ≤ lo ∨ hi ≤ off)
    (hI : HduInv f US t axes off h) : HduInv f' US t axes off h := by
  have hcl := hI.hcl
  have hcu := hI.hcu
  refine ⟨hI.het, hI.hax, hI.hoff, hI.hdbs, hcl, hcu, ?_, ?_, ?_⟩
  · intro k hk
    refine readBytes_writesWithin hW (by omega) (hI.hmand k hk)
  · intro k h1 h2
    obtain ⟨r, hr, hu⟩ := hI.huser k h1 h2
    exact ⟨r, readBytes_writesWithin hW (by omega) hr, hu⟩
  · refine readBytes_writesWithin hW (by omega) hI.hend

/-- Constructing the tail of the schema establishes the invariant for every
constructed HDU (with no user records yet). -/
theorem mkOfitsAux_inv : ∀ (rest : List (FitsType × List Nat)) (cur : Nat)
    (f f' : FileT) (hs : List OHdu),
    mkOfitsAux f rest (planOffsets rest cur) = .ok (f', hs) →
    SchemaWF rest → fileSize f ≤ cur →
    hs.length = rest.length ∧
    WritesWithin f f' cur (planEnd rest cur) ∧
    (∀ i t axes, rest[i]? = some (t, axes) → ∃ h, hs[i]? = some h ∧
      HduInv f' (fun _ => False) t axes ((planOffsets rest cur).getD i 0) h)
  | [], cur, f, f', hs, hmk, hwf, hsz => by
    simp only [planOffsets, mkOfitsAux, Except.ok.injEq, Prod.mk.injEq] at hmk
    obtain ⟨rfl, rfl⟩ := hmk
    exact ⟨rfl, writesWithin_refl f _ _, fun i t axes h => by simp at h⟩
  | (t, axes) :: rrest, cur, f, f', hs, hmk, hwf, hsz => by
    rw [planOffsets, mkOfitsAux] at hmk
    simp only [bind, Except.bind] at hmk
    split at hmk
    · exact absurd hmk (by simp)
    rename_i p1 hp1
    split at hmk
    · exact absurd hmk (by simp)
    rename_i p2 hp2
    simp only [Except.ok.injEq, Prod.mk.injEq] at hmk
    obtain ⟨hf', hhs⟩ := hmk
    obtain ⟨hne, hpos, hbound, hlen31⟩ := hwf (t, axes) (by simp)
    simp only at hne hpos hbound hlen31
    obtain ⟨hW1, hslots, hendS, hszlb⟩ := mkOHdu_file hp1
    have hst := mkOHdu_state hp1
    have hsz1 : fileSize p1.1 ≤ cur + hduSpan t axes := by
      have h1 := hW1.2.2
      have h2 := hduSpan_ge t axes
      omega
    obtain ⟨ihLen, ihW, ihHdu⟩ := mkOfitsAux_inv rrest (cur + hduSpan t axes)
      p1.1 p2.1 p2.2 hp2 (fun e he => hwf e (by simp [he])) hsz1
    have hspan80 : cur + 80 * (axes.length + 5) ≤ cur + hduSpan t axes := by
      have := hduSpan_ge t axes
      omega
    have hEndGe := planEnd_ge rrest (cur + hduSpan t axes)
    have hplanEq : planEnd ((t, axes) :: rrest) cur =
        planEnd rrest (cur + hduSpan t axes) := rfl
    constructor
    · rw [← hhs, List.length_cons, ihLen]
      rfl
    constructor
    · rw [← hf', hplanEq]
      refine writesWithin_trans
        (writesWithin_mono hW1 (le_refl _) (by omega))
        (writesWithin_mono ihW (by omega) (le_refl _))
    · intro i t' axes' hi
      cases i with
      | zero =>
        simp only [List.getElem?_cons_zero, Option.some.injEq, Prod.mk.injEq] at hi
        obtain ⟨rfl, rfl⟩ := hi
        refine ⟨p1.2, by rw [← hhs]; simp, ?_⟩
        have hgd : (planOffsets ((t, axes) :: rrest) cur).getD 0 0 = cur := by
          rw [planOffsets]
          simp
        rw [hgd, ← hf']
        have hpres : ∀ pos r, pos + 80 ≤ cur + 80 * (axes.length + 5) →
            readBytes p1.1 pos 80 = some r → readBytes p2.1 pos 80 = some r := by
          intro pos r hp hr
          exact readBytes_writesWithin ihW (by omega) hr
        refine ⟨by rw [hst], by rw [hst], by rw [hst], by rw [hst],
          by rw [hst], by rw [hst]; dsimp only; omega, ?_, ?_, ?_⟩
        · intro k hk
          exact hpres _ _ (by omega) (hslots k hk)
        · intro k h1 h2
          rw [hst] at h2
          dsimp only at h2
          omega
        · rw [hst]
          dsimp only
          exact hpres _ _ (by omega) hendS
      | succ i =>
        simp only [List.getElem?_cons_succ] at hi
        obtain ⟨h, hh, hI⟩ := ihHdu i t' axes' hi
        refine ⟨h, by rw [← hhs]; simpa using hh, ?_⟩
        rw [← hf']
        have hgd : (planOffsets ((t, axes) :: rrest) cur).getD (i + 1) 0 =
            (planOffsets rrest (cur + hduSpan t axes)).getD i 0 := by
          rw [planOffsets]
          simp
        rw [hgd]
        exact hI

/-- A fresh `ofits` construction satisfies the writer invariant for any
user-record predicate. -/
theorem mkOfits_inv {schema : List (FitsType × List Nat)} {f' : FileT}
    {hs : List OHdu} {US : Nat → List Nat → Prop}
    (hmk : mkOfits schema = .ok (f', hs)) (hwf : SchemaWF schema) :
    WInv schema US (f', hs) := by
  obtain ⟨hlen, hW, hHdu⟩ :=
    mkOfitsAux_inv schema 0 [] f' hs hmk hwf (le_refl 0)
  refine ⟨hlen, ?_, ?_⟩
  · intro i t axes hi
    obtain ⟨h, hh, hI⟩ := hHdu i t axes hi
    exact ⟨h, hh, hduInv_mono_US (fun r hr => absurd hr (by simp)) hI⟩
  · have := hW.2.2
    have h0 : fileSize ([] : FileT) = 0 := rfl
    show fileSize f' ≤ planEnd schema 0
    omega

theorem planOffsetAt_eq {schema : List (FitsType × List Nat)} {i : Nat}
    (hi : i < schema.length) :
    (planOffsets schema 0)[i]? = some (planOffsetAt schema i) := by
  have hl : i < (planOffsets schema 0).length := by
    rw [planOffsets_length]
    exact hi
  rw [List.getElem?_eq_getElem hl, planOffsetAt, List.getD_eq_getElem?_getD,
    List.getElem?_eq_getElem hl]
  rfl

theorem planOffsetAt_mono {schema : List (FitsType × List Nat)} {i j : Nat}
    (hij : i ≤ j) (hj : j < schema.length) :
    planOffsetAt schema i ≤ planOffsetAt schema j :=
  planOffsets_entry_mono schema 0 i j _ _ hij
    (planOffsetAt_eq (by omega)) (planOffsetAt_eq hj)

theorem planOffsetAt_succ_le {schema : List (FitsType × List Nat)} {i j : Nat}
    {t : FitsType} {axes : List Nat} (hij : i < j) (hj : j < schema.length)
    (hi : schema[i]? = some (t, axes)) :
    planOffsetAt schema i + hduSpan t axes ≤ planOffsetAt schema j := by
  have hsucc := planOffsets_succ schema 0 i t axes hi (by omega)
  rw [planOffsetAt_eq (show i < schema.length by omega)] at hsucc
  simp only [Option.map_some'] at hsucc
  exact planOffsets_entry_mono schema 0 (i + 1) j _ _ (by omega) hsucc
    (planOffsetAt_eq hj)

theorem planOffsetAt_span_le_planEnd {schema : List (FitsType × List Nat)}
    {i : Nat} {t : FitsType} {axes : List Nat} (hlen : i < schema.length)
    (hi : schema[i]? = some (t, axes)) :
    planOffsetAt schema i + hduSpan t axes ≤ planEnd schema 0 := by
  obtain ⟨t', axes', h1, h2⟩ :=
    planOffsets_entry_le_planEnd schema 0 i _ (planOffsetAt_eq hlen)
  rw [hi] at h1
  simp only [Option.some.injEq, Prod.mk.injEq] at h1
  obtain ⟨rfl, rfl⟩ := h1
  exact h2

/-- Unpacking a successful `write_data`. -/
theorem writeDataOp_ok {f f' : FileT} {h : OHdu} {idx B : List Nat} {w : Nat}
    (hwd : writeDataOp f h idx B = .ok (f', w)) :
    ∃ co, ofitsCalcOffset h.naxis (sizeOfT h.elemType) idx = .ok co ∧
      B.length + co ≤ h.dataBlockSize ∧
      f' = writeAt f (h.offset + 2880 + co) B ∧ w = B.length := by
  simp only [writeDataOp, bind, Except.bind] at hwd
  split at hwd
  · exact absurd hwd (by simp)
  · rename_i co hco
    split at hwd
    · exact absurd hwd (by simp)
    · rename_i hbound
      simp only [Except.ok.injEq, Prod.mk.injEq] at hwd
      exact ⟨co, hco, by omega, hwd.1.symm, hwd.2.symm⟩

/-- Unpacking a successful `value_as` header append. -/
theorem valueAsSet_ok {f f' : FileT} {h h' : OHdu} {k v : List Nat}
    (hset : valueAsSet f h k v = .ok (f', h')) :
    h.headersWritten ≤ 35 ∧
    h' = { h with headersWritten := h.headersWritten + 1 } ∧
    f' = writeAt (writeAt f (h.headersWritten * 80 + h.offset) (mkRecord k v))
      ((h.headersWritten + 1) * 80 + h.offset) endRecord := by
  rw [valueAsSet] at hset
  split at hset
  · rename_i hlt
    simp only [Except.ok.injEq, Prod.mk.injEq] at hset
    exact ⟨by omega, hset.2.symm, hset.1.symm⟩
  · exact absurd hset (by simp)

/-- One user operation preserves the writer invariant, provided every `set`
it performs carries an allowed user record and no header count passes 35. -/
theorem stepOp_inv {schema : List (FitsType × List Nat)}
    {US : Nat → List Nat → Prop} {S S' : FileT × List OHdu} {op : WOp}
    (hI : WInv schema US S) (hstep : stepOp S op = .ok S')
    (hUS : ∀ n k v, op = .set n k v → US n (mkRecord k v))
    (hpost : ∀ (i : Nat) (h' : OHdu), S'.2[i]? = some h' → h'.headersWritten ≤ 35) :
    WInv schema US S' := by
  obtain ⟨hlen, hhdu, hsz⟩ := hI
  cases op with
  | writeData n idx B =>
    simp only [stepOp] at hstep
    split at hstep
    case h_2 => exact absurd hstep (by simp)
    rename_i h hn
    simp only [bind, Except.bind] at hstep
    split at hstep
    · exact absurd hstep (by simp)
    rename_i p hwd
    simp only [Except.ok.injEq] at hstep
    obtain ⟨co, hco, hbound, hf', hw⟩ := writeDataOp_ok hwd
    have hnlt : n < S.2.length := by
      by_contra hc
      rw [List.getElem?_eq_none (by omega)] at hn
      exact absurd hn (by simp)
    have hnschema : n < schema.length := by omega
    obtain ⟨⟨t, axes⟩, he⟩ : ∃ e, schema[n]? = some e :=
      ⟨schema[n], List.getElem?_eq_getElem hnschema⟩
    obtain ⟨h', hh', hInv⟩ := hhdu n t axes he
    rw [hn] at hh'
    have hh'' : h = h' := by
      simpa using hh'
    subst hh''
    have hoff := hInv.hoff
    have hdbs := hInv.hdbs
    have hspan := hduSpan_ge t axes
    have hW : WritesWithin S.1 p.1 (planOffsetAt schema n + 2880)
        (planOffsetAt schema n + hduSpan t axes) := by
      rw [hf', hoff]
      apply writesWithin_writeAt _ _ _ _ _ (by omega)
      rw [hdbs] at hbound
      omega
    rw [← hstep]
    refine ⟨hlen, ?_, ?_⟩
    · intro i t' axes' hi
      obtain ⟨hi', hhi', hInvi⟩ := hhdu i t' axes' hi
      have hilen : i < schema.length := by
        by_contra hc
        rw [List.getElem?_eq_none (by omega)] at hi
        exact absurd hi (by simp)
      refine ⟨hi', hhi', hduInv_preserve hW ?_ hInvi⟩
      rcases Nat.lt_or_ge i n with hlt | hge
      · left
        have h1 : planOffsetAt schema i + hduSpan t' axes' ≤
            planOffsetAt schema n := planOffsetAt_succ_le hlt hnschema hi
        have h2 := hduSpan_ge t' axes'
        omega
      · rcases Nat.eq_or_lt_of_le hge with rfl | hgt
        · left
          omega
        · right
          exact planOffsetAt_succ_le hgt hilen he
    · have h1 := hW.2.2
      have h2 := planOffsetAt_span_le_planEnd hnschema he
      show fileSize p.1 ≤ planEnd schema 0
      omega
  | set n k v =>
    simp only [stepOp] at hstep
    split at hstep
    case h_2 => exact absurd hstep (by simp)
    rename_i h hn
    simp only [bind, Except.bind] at hstep
    split at hstep
    · exact absurd hstep (by simp)
    rename_i p hset
    simp only [Except.ok.injEq] at hstep
    obtain ⟨hc35, hp2, hpf⟩ := valueAsSet_ok hset
    have hnlt : n < S.2.length := by
      by_contra hc
      rw [List.getElem?_eq_none (by omega)] at hn
      exact absurd hn (by simp)
    have hnschema : n < schema.length := by omega
    obtain ⟨⟨t, axes⟩, he⟩ : ∃ e, schema[n]? = some e :=
      ⟨schema[n], List.getElem?_eq_getElem hnschema⟩
    obtain ⟨h', hh', hInv⟩ := hhdu n t axes he
    rw [hn] at hh'
    have hh'' : h = h' := by
      simpa using hh'
    subst hh''
    have hoff := hInv.hoff
    set c := h.headersWritten with hc
    set O := planOffsetAt schema n with hO
    -- the new count obeys the 35-record bound
    have hcpost : c + 1 ≤ 35 := by
      have := hpost n p.2 (by
        rw [← hstep]
        simp only
        rw [List.getElem?_set_self (by omega)])
      rw [hp2] at this
      simpa using this
    have hpos1 : c * 80 + h.offset = O + 80 * c := by
      rw [hoff]; ring
    have hpos2 : (c + 1) * 80 + h.offset = O + 80 * (c + 1) := by
      rw [hoff]; ring
    rw [hpos1, hpos2] at hpf
    have hW : WritesWithin S.1 p.1 (O + 80 * c) (O + 80 * (c + 2)) := by
      rw [hpf]
      have W1 : WritesWithin S.1 (writeAt S.1 (O + 80 * c) (mkRecord k v))
          (O + 80 * c) (O + 80 * (c + 2)) :=
        writesWithin_writeAt S.1 (O + 80 * c) (mkRecord k v) _ _ (le_refl _)
          (by rw [mkRecord_length]; omega)
      have W2 : WritesWithin (writeAt S.1 (O + 80 * c) (mkRecord k v))
          (writeAt (writeAt S.1 (O + 80 * c) (mkRecord k v))
            (O + 80 * (c + 1)) endRecord)
          (O + 80 * c) (O + 80 * (c + 2)) :=
        writesWithin_writeAt _ (O + 80 * (c + 1)) endRecord _ _ (by omega)
          (by rw [endRecord_length]; omega)
      exact writesWithin_trans W1 W2
    have hspan := hduSpan_ge t axes
    have hcub : 80 * (c + 2) ≤ 2880 := by omega
    rw [← hstep]
    refine ⟨by simpa using hlen, ?_, ?_⟩
    · intro i t' axes' hi
      have hilen : i < schema.length := by
        by_contra hcx
        rw [List.getElem?_eq_none (by omega)] at hi
        exact absurd hi (by simp)
      rcases eq_or_ne i n with rfl | hne
      · rw [he] at hi
        simp only [Option.some.injEq, Prod.mk.injEq] at hi
        obtain ⟨rfl, rfl⟩ := hi
        refine ⟨p.2, by simp only; rw [List.getElem?_set_self (by omega)], ?_⟩
        have hkeep : ∀ pos r, pos + 80 ≤ O + 80 * c →
            readBytes S.1 pos 80 = some r → readBytes p.1 pos 80 = some r := by
          intro pos r hp hr
          exact readBytes_writesWithin hW (by omega) hr
        refine ⟨by rw [hp2]; exact hInv.het, by rw [hp2]; exact hInv.hax,
          by rw [hp2]; exact hInv.hoff, by rw [hp2]; exact hInv.hdbs,
          ?_, ?_, ?_, ?_, ?_⟩
        · rw [hp2]
          simp only
          have := hInv.hcl
          omega
        · rw [hp2]
          simp only
          omega
        · intro j hj
          have := hInv.hcl
          exact hkeep _ _ (by omega) (hInv.hmand j hj)
        · intro j h1 h2
          rw [hp2] at h2
          simp only at h2
          rcases Nat.lt_or_ge j c with hjc | hjc
          · obtain ⟨r, hr, hu⟩ := hInv.huser j h1 hjc
            exact ⟨r, hkeep _ _ (by omega) hr, hu⟩
          · have hjeq : j = c := by omega
            subst hjeq
            refine ⟨mkRecord k v, ?_, hUS i k v rfl⟩
            rw [hpf]
            have hself := readBytes_writeAt_self S.1 (O + 80 * c) (mkRecord k v)
            rw [mkRecord_length] at hself
            refine readBytes_writeAt_disjoint _ _ (by left; omega) hself
        · rw [hp2]
          simp only
          rw [hpf]
          have hself := readBytes_writeAt_self
            (writeAt S.1 (O + 80 * c) (mkRecord k v)) (O + 80 * (c + 1)) endRecord
          rw [endRecord_length] at hself
          exact hself
      · obtain ⟨hi', hhi', hInvi⟩ := hhdu i t' axes' hi
        refine ⟨hi', by simp only; rw [List.getElem?_set_ne (by omega)]; exact hhi', ?_⟩
        refine hduInv_preserve hW ?_ hInvi
        rcases Nat.lt_or_ge i n with hlt | hge
        · left
          have h1 : planOffsetAt schema i + hduSpan t' axes' ≤ O :=
            planOffsetAt_succ_le hlt hnschema hi
          have h2 := hduSpan_ge t' axes'
          omega
        · have hgt : n < i := by omega
          right
          have h1 : O + hduSpan t axes ≤ planOffsetAt schema i :=
            planOffsetAt_succ_le hgt hilen he
          omega
    · have h1 := hW.2.2
      have h2 := planOffsetAt_span_le_planEnd hnschema he
      show fileSize p.1 ≤ planEnd schema 0
      omega

/-- Header counts never decrease along a run. -/
theorem stepOp_counts {S S₁ : FileT × List OHdu} {op : WOp}
    (h : stepOp S op = .ok S₁) :
    ∀ (i : Nat) (hd : OHdu), S.2[i]? = some hd →
      ∃ hd₁, S₁.2[i]? = some hd₁ ∧ hd.headersWritten ≤ hd₁.headersWritten := by
  intro i hd hi
  cases op with
  | writeData n idx B =>
    simp only [stepOp] at h
    split at h
    case h_2 => exact absurd h (by simp)
    rename_i hh hn
    simp only [bind, Except.bind] at h
    split at h
    · exact absurd h (by simp)
    rename_i p hwd
    simp only [Except.ok.injEq] at h
    rw [← h]
    exact ⟨hd, hi, le_refl _⟩
  | set n k v =>
    simp only [stepOp] at h
    split at h
    case h_2 => exact absurd h (by simp)
    rename_i hh hn
    simp only [bind, Except.bind] at h
    split at h
    · exact absurd h (by simp)
    rename_i p hset
    simp only [Except.ok.injEq] at h
    obtain ⟨hb, hp2, hpf⟩ := valueAsSet_ok hset
    rw [← h]
    simp only
    rcases eq_or_ne i n with rfl | hne
    · have hlt : i < S.2.length := by
        by_contra hc
        rw [List.getElem?_eq_none (by omega)] at hi
        exact absurd hi (by simp)
      refine ⟨p.2, List.getElem?_set_self (by omega), ?_⟩
      rw [hi] at hn
      have : hh = hd := by
        simpa using hn.symm
      subst this
      rw [hp2]
      simp only
      omega
    · exact ⟨hd, by rw [List.getElem?_set_ne (by omega)]; exact hi, le_refl _⟩

theorem runOps_counts : ∀ (ops : List WOp) (S S' : FileT × List OHdu),
    runOps S ops = .ok S' → ∀ (i : Nat) (hd : OHdu), S.2[i]? = some hd →
      ∃ hd', S'.2[i]? = some hd' ∧ hd.headersWritten ≤ hd'.headersWritten
  | [], S, S', h, i, hd, hi => by
    simp only [runOps, Except.ok.injEq] at h
    exact ⟨hd, by rw [← h]; exact hi, le_refl _⟩
  | op :: rest, S, S', h, i, hd, hi => by
    rw [runOps] at h
    simp only [bind, Except.bind] at h
    split at h
    · exact absurd h (by simp)
    rename_i S₁ hstep
    obtain ⟨hd₁, h1, h2⟩ := stepOp_counts hstep i hd hi
    obtain ⟨hd', h3, h4⟩ := runOps_counts rest S₁ S' h i hd₁ h1
    exact ⟨hd', h3, by omega⟩

/-- A run of user operations preserves the writer invariant, provided every
`set` writes an allowed record and the final counts stay within 35. -/
theorem runOps_inv : ∀ (ops : List WOp) {schema : List (FitsType × List Nat)}
    {US : Nat → List Nat → Prop} {S S' : FileT × List OHdu},
    runOps S ops = .ok S' → WInv schema US S →
    (∀ op ∈ ops, ∀ n k v, op = WOp.set n k v → US n (mkRecord k v)) →
    (∀ (i : Nat) (h' : OHdu), S'.2[i]? = some h' → h'.headersWritten ≤ 35) →
    WInv schema US S'
  | [], schema, US, S, S', h, hI, hUS, hpost => by
    simp only [runOps, Except.ok.injEq] at h
    rw [← h]
    exact hI
  | op :: rest, schema, US, S, S', h, hI, hUS, hpost => by
    rw [runOps] at h
    simp only [bind, Except.bind] at h
    split at h
    · exact absurd h (by simp)
    rename_i S₁ hstep
    have hpost₁ : ∀ (i : Nat) (h' : OHdu), S₁.2[i]? = some h' →
        h'.headersWritten ≤ 35 := by
      intro i h' hi
      obtain ⟨hd', h1, h2⟩ := runOps_counts rest S₁ S' h i h' hi
      have := hpost i hd' h1
      omega
    have hI₁ := stepOp_inv hI hstep (fun n k v hop => hUS op (by simp) n k v hop)
      hpost₁
    exact runOps_inv rest h hI₁ (fun o ho n k v hop => hUS o (by simp [ho]) n k v hop)
      hpost

/-! ## No keyword record is the END record -/

theorem mkRecord_getElem_sep {k v : List Nat} (h8 : k.length + 3 ≤ 80) :
    (mkRecord k v)[k.length + 1]? = some 61 := by
  have hsplit : (k ++ sepEq ++ v).take 80 =
      (k ++ sepEq) ++ v.take (80 - (k ++ sepEq).length) := by
    rw [List.take_append_eq_append_take,
      List.take_of_length_le (by simp [sepEq]; omega)]
  rw [mkRecord, pad80, hsplit]
  rw [List.getElem?_append_left (by simp [sepEq]; try omega),
    List.getElem?_append_left (by simp [sepEq]; try omega),
    List.getElem?_append_right (by omega)]
  have h1 : k.length + 1 - k.length = 1 := by omega
  rw [h1]
  rfl

theorem endRecord_getElem {p : Nat} (h3 : 3 ≤ p) (h80 : p < 80) :
    endRecord[p]? = some 32 := by
  show (pad80 kEND)[p]? = some 32
  rw [pad80]
  have hkE : (kEND.take 80) = kEND := by rfl
  rw [hkE, List.getElem?_append_right (by simp [kEND]; omega)]
  rw [List.getElem?_replicate_of_lt (by simp [kEND]; omega)]

theorem mkRecord_ne_endRecord {k v : List Nat} (h2 : 2 ≤ k.length)
    (h76 : k.length ≤ 76) : mkRecord k v ≠ endRecord := by
  intro hcontra
  have h1 := mkRecord_getElem_sep (k := k) (v := v) (by omega)
  have h2' := endRecord_getElem (p := k.length + 1) (by omega) (by omega)
  rw [hcontra, h2'] at h1
  exact absurd h1 (by simp)

theorem mandRecord_ne_endRecord (t : FitsType) (axes : List Nat) {k : Nat}
    (hk : k ≤ 35) : mandRecord t axes k ≠ endRecord := by
  rw [mandRecord]
  split
  · exact mkRecord_ne_endRecord (by rw [kSIMPLE]; simp) (by rw [kSIMPLE]; simp)
  split
  · exact mkRecord_ne_endRecord (by rw [kBITPIX]; simp) (by rw [kBITPIX]; simp)
  split
  · exact mkRecord_ne_endRecord (by rw [kNAXIS]; simp) (by rw [kNAXIS]; simp)
  split
  · have hlen : (kNAXIS ++ natRepr (k - 2)).length ≤ 7 := by
      have := natRepr_length_le (n := k - 2) (k := 2) (by omega) (by omega)
      simp only [List.length_append, kNAXIS]
      simp
      omega
    refine mkRecord_ne_endRecord ?_ (by omega)
    simp [kNAXIS]
  · exact mkRecord_ne_endRecord (by rw [kEXTEND]; simp) (by rw [kEXTEND]; simp)

/-! ## Reader lemmas: case-insensitive keyword lookup -/

theorem ciEqB_refl (a : List Nat) : ciEqB a a = true := by simp [ciEqB]

theorem ciEqB_length_ne {a b : List Nat} (h : a.length ≠ b.length) :
    ciEqB a b = false := by
  rw [ciEqB, beq_eq_false_iff_ne]
  intro hc
  apply h
  have := congrArg List.length hc
  simpa using this

theorem ciEqB_head_ne {a b : Nat} {as bs : List Nat}
    (h : ciLower a ≠ ciLower b) : ciEqB (a :: as) (b :: bs) = false := by
  rw [ciEqB, beq_eq_false_iff_ne]
  intro hc
  simp only [List.map_cons, List.cons.injEq] at hc
  exact h hc.1

theorem ciLower_digit {c : Nat} (h1 : 48 ≤ c) (h2 : c ≤ 57) : ciLower c = c := by
  rw [ciLower, if_neg (by omega)]

theorem map_ciLower_natRepr (n : Nat) : (natRepr n).map ciLower = natRepr n := by
  calc (natRepr n).map ciLower
      = (natRepr n).map id := List.map_congr_left (fun c hc => by
        have := mem_natRepr hc
        simpa using ciLower_digit this.1 this.2)
    _ = natRepr n := List.map_id _

theorem ciEqB_naxisKey {a b : Nat} :
    ciEqB (kNAXIS ++ natRepr a) (kNAXIS ++ natRepr b) = true ↔ a = b := by
  constructor
  · intro h
    rw [ciEqB, beq_iff_eq] at h
    rw [List.map_append, List.map_append, map_ciLower_natRepr,
      map_ciLower_natRepr] at h
    exact natRepr_injective (List.append_cancel_left h)
  · intro h
    rw [h]
    exact ciEqB_refl _

theorem findHeader_cons (k0 v0 : List Nat) (rest : List (List Nat × List Nat))
    (key : List Nat) :
    findHeader ((k0, v0) :: rest) key =
      if ciEqB k0 key = true then some v0 else findHeader rest key := by
  by_cases h : ciEqB k0 key = true
  · rw [if_pos h, findHeader, List.find?_cons_of_pos _ (by simpa using h)]
    rfl
  · rw [if_neg h, findHeader, List.find?_cons_of_neg _ (by simpa using h)]
    rfl

theorem findHeader_naxisParsed : ∀ (axes : List Nat) (i j : Nat)
    (tl : List (List Nat × List Nat)), i ≤ j → j < i + axes.length →
    findHeader (naxisParsed axes i ++ tl) (kNAXIS ++ natRepr j) =
      some (natRepr (axes.getD (j - i) 0))
  | [], i, j, tl, h1, h2 => by simp at h2; omega
  | n :: rest, i, j, tl, h1, h2 => by
    rw [naxisParsed, List.cons_append, findHeader_cons]
    rcases eq_or_ne i j with rfl | hne
    · rw [if_pos (ciEqB_naxisKey.mpr rfl)]
      simp
    · have hF : ciEqB (kNAXIS ++ natRepr i) (kNAXIS ++ natRepr j) = false := by
        rcases Bool.eq_false_or_eq_true
          (ciEqB (kNAXIS ++ natRepr i) (kNAXIS ++ natRepr j)) with h | h
        · exact absurd (ciEqB_naxisKey.mp h) hne
        · exact h
      rw [if_neg (by simp [hF])]
      rw [findHeader_naxisParsed rest (i + 1) j tl (by omega)
        (by simp at h2; omega)]
      have hji : j - i = (j - (i + 1)) + 1 := by omega
      rw [hji, List.getD_cons_succ]

theorem findHeader_mand_NAXIS (t : FitsType) (axes : List Nat)
    (u : List (List Nat × List Nat)) :
    findHeader (mandParsed t axes ++ u) kNAXIS = some (natRepr axes.length) := by
  rw [mandParsed]
  simp only [List.cons_append]
  rw [findHeader_cons, if_neg (by decide), findHeader_cons, if_neg (by decide),
    findHeader_cons, if_pos (ciEqB_refl _)]

theorem findHeader_mand_BITPIX (t : FitsType) (axes : List Nat)
    (u : List (List Nat × List Nat)) :
    findHeader (mandParsed t axes ++ u) kBITPIX = some (bitpixRepr t) := by
  rw [mandParsed]
  simp only [List.cons_append]
  rw [findHeader_cons, if_neg (by decide), findHeader_cons,
    if_pos (ciEqB_refl _)]

theorem findHeader_mand_NAXISj (t : FitsType) (axes : List Nat)
    (u : List (List Nat × List Nat)) {j : Nat} (h1 : 1 ≤ j)
    (h2 : j ≤ axes.length) :
    findHeader (mandParsed t axes ++ u) (kNAXIS ++ natRepr j) =
      some (natRepr (axes.getD (j - 1) 0)) := by
  have hS : ¬ (ciEqB kSIMPLE (kNAXIS ++ natRepr j) = true) := by
    rw [show kNAXIS ++ natRepr j = 78 :: ([65, 88, 73, 83] ++ natRepr j) from rfl,
      show kSIMPLE = 83 :: [73, 77, 80, 76, 69] from rfl,
      ciEqB_head_ne (by decide)]
    simp
  have hB : ¬ (ciEqB kBITPIX (kNAXIS ++ natRepr j) = true) := by
    rw [show kNAXIS ++ natRepr j = 78 :: ([65, 88, 73, 83] ++ natRepr j) from rfl,
      show kBITPIX = 66 :: [73, 84, 80, 73, 88] from rfl,
      ciEqB_head_ne (by decide)]
    simp
  have hN : ¬ (ciEqB kNAXIS (kNAXIS ++ natRepr j) = true) := by
    have hlen : 0 < (natRepr j).length := List.length_pos.mpr (natRepr_ne_nil j)
    rw [ciEqB_length_ne (by
      simp only [kNAXIS, List.length_append, List.length_cons, List.length_nil]
      omega)]
    simp
  rw [mandParsed]
  simp only [List.cons_append, List.append_assoc]
  rw [findHeader_cons, if_neg hS, findHeader_cons, if_neg hB, findHeader_cons,
    if_neg hN]
  rw [findHeader_naxisParsed axes 1 j _ h1 (by omega)]

/-! ## Reader lemmas: the numeric header getters -/

theorem stoiM_bitpixRepr (t : FitsType) :
    stoiM (bitpixRepr t) = .ok (bitpixOf t) := by
  cases t <;> decide

theorem getNAXIS_mand (t : FitsType) (axes : List Nat)
    (u : List (List Nat × List Nat)) :
    getNAXIS (mandParsed t axes ++ u) = .ok (axes.length : Int) := by
  unfold getNAXIS
  rw [findHeader_mand_NAXIS]
  exact stoiM_natRepr _

theorem getBITPIX_mand (t : FitsType) (axes : List Nat)
    (u : List (List Nat × List Nat)) :
    getBITPIX (mandParsed t axes ++ u) = .ok (bitpixOf t) := by
  unfold getBITPIX
  rw [findHeader_mand_BITPIX]
  exact stoiM_bitpixRepr t

theorem le_listProd_of_mem {l : List Nat} {n : Nat} (hn : n ∈ l)
    (hpos : ∀ m ∈ l, 0 < m) : n ≤ listProd l := by
  induction l with
  | nil => simp at hn
  | cons a l ih =>
    rw [listProd_cons]
    rcases List.mem_cons.mp hn with rfl | h
    · have hp : 0 < listProd l := listProd_pos (fun m hm => hpos m (by simp [hm]))
      calc n = n * 1 := by ring
        _ ≤ n * listProd l := Nat.mul_le_mul_left n hp
    · have hp : 0 < a := hpos a (by simp)
      calc n ≤ listProd l := ih h (fun m hm => hpos m (by simp [hm]))
        _ = 1 * listProd l := by ring
        _ ≤ a * listProd l := Nat.mul_le_mul_right _ hp

theorem naxisProdLoop_seg (t : FitsType) (axes : List Nat)
    (u : List (List Nat × List Nat)) :
    ∀ (b a : Nat) (acc : Int), 1 ≤ a → a + b ≤ axes.length + 1 →
    naxisProdLoop (mandParsed t axes ++ u) (List.range' a b) acc =
      .ok (acc * (listProd ((axes.drop (a - 1)).take b) : Int))
  | 0, a, acc, h1, h2 => by
    simp [naxisProdLoop, listProd_nil]
  | b + 1, a, acc, h1, h2 => by
    rw [List.range', naxisProdLoop,
      findHeader_mand_NAXISj t axes u (by omega) (by omega)]
    simp only [stoiM_natRepr, bind, Except.bind]
    rw [naxisProdLoop_seg t axes u b (a + 1) _ (by omega) (by omega)]
    have hidx : a - 1 < axes.length := by omega
    have hcons : (axes.drop (a - 1)).take (b + 1) =
        axes[a - 1] :: ((axes.drop a).take b) := by
      rw [List.drop_eq_getElem_cons hidx, List.take_succ_cons]
      have : a - 1 + 1 = a := by omega
      rw [this]
    have hgd : axes.getD (a - 1) 0 = axes[a - 1] := by
      rw [List.getD_eq_getElem?_getD, List.getElem?_eq_getElem hidx]
      rfl
    have harg : a + 1 - 1 = a := by omega
    rw [hcons, listProd_cons, hgd, harg]
    congr 1
    push_cast
    ring

theorem getNAXISProduct_mand (t : FitsType) (axes : List Nat)
    (u : List (List Nat × List Nat)) :
    getNAXISProduct (mandParsed t axes ++ u) = .ok (listProd axes : Int) := by
  rw [getNAXISProduct]
  simp only [bind, Except.bind, getNAXIS_mand, Int.toNat_natCast]
  rw [naxisProdLoop_seg t axes u axes.length 1 1 (by omega) (by omega)]
  simp

theorem natAbs_bitpixOf (t : FitsType) : (bitpixOf t).natAbs = 8 * sizeOfT t := by
  cases t <;> rfl

theorem calculateDataBlockSize_mand (t : FitsType) (axes : List Nat)
    (u : List (List Nat × List Nat)) :
    calculateDataBlockSize (mandParsed t axes ++ u) =
      .ok (roundOffset (listProd axes * sizeOfT t)) := by
  rw [calculateDataBlockSize]
  simp only [bind, Except.bind, getNAXISProduct_mand, getBITPIX_mand]
  have hc : (listProd axes : Int) * ((bitpixOf t).natAbs : Int) =
      ((listProd axes * (8 * sizeOfT t) : Nat) : Int) := by
    rw [natAbs_bitpixOf]
    push_cast
    ring
  rw [hc, Int.toNat_natCast]
  have hdiv : listProd axes * (8 * sizeOfT t) / 8 = listProd axes * sizeOfT t := by
    have h8 : listProd axes * (8 * sizeOfT t) = (listProd axes * sizeOfT t) * 8 := by
      ring
    rw [h8, Nat.mul_div_cancel _ (by norm_num)]
  rw [hdiv]

/-! ## Reader lemmas: `calculate_offset` -/

theorem naxisSuffixProd_mand (t : FitsType) (axes : List Nat)
    (u : List (List Nat × List Nat)) :
    ∀ i, i ≤ axes.length →
    naxisSuffixProd (mandParsed t axes ++ u) i =
      .ok (listProd ((axes.drop 1).take (i - 1)))
  | 0, h => by simp [naxisSuffixProd, listProd_nil]
  | 1, h => by simp [naxisSuffixProd, listProd_nil]
  | j + 2, h => by
    rw [naxisSuffixProd, findHeader_mand_NAXISj t axes u (by omega) (by omega)]
    simp only [stoiM_natRepr, bind, Except.bind]
    rw [naxisSuffixProd_mand t axes u (j + 1) (by omega)]
    simp only [Except.ok.injEq, Int.toNat_natCast]
    have hidx : j + 1 < axes.length := by omega
    have hd : (axes.drop 1)[j]? = some axes[j + 1] := by
      rw [List.getElem?_drop, (by omega : 1 + j = j + 1),
        List.getElem?_eq_getElem hidx]
    have hsub : j + 2 - 1 = j + 1 := by omega
    have hsub2 : j + 1 - 1 = j := by omega
    have hgd : axes.getD (j + 2 - 1) 0 = axes[j + 1] := by
      rw [hsub, List.getD_eq_getElem?_getD, List.getElem?_eq_getElem hidx]
      rfl
    have htl : (some axes[j + 1]).toList = [axes[j + 1]] := rfl
    rw [hgd, hsub, hsub2, List.take_succ, hd, htl]
    rw [listProd_append, listProd_cons, listProd_nil]
    ring

theorem ifitsCalcLoop_mand (t : FitsType) (axes : List Nat)
    (u : List (List Nat × List Nat)) :
    ∀ (I : List Nat) (cur acc : Nat), cur ≤ axes.length →
    ifitsCalcLoop (mandParsed t axes ++ u) I cur acc =
      .ok (acc + ifitsSumSpec axes I cur)
  | [], cur, acc, h => by simp [ifitsCalcLoop, ifitsSumSpec]
  | i :: rest, cur, acc, h => by
    rw [ifitsCalcLoop]
    simp only [naxisSuffixProd_mand t axes u cur h, bind, Except.bind]
    rw [ifitsCalcLoop_mand t axes u rest (cur - 1) _ (by omega)]
    rw [ifitsSumSpec]
    congr 1
    ring

theorem ifitsCalcOffset_mand (t : FitsType) (axes : List Nat)
    (u : List (List Nat × List Nat)) {I : List Nat}
    (hlen : I.length ≤ axes.length) :
    ifitsCalcOffset (mandParsed t axes ++ u) I =
      .ok (ifitsSumSpec axes I axes.length) := by
  rw [ifitsCalcOffset]
  simp only [bind, Except.bind, getNAXIS_mand]
  rw [if_neg (by omega), Int.toNat_natCast]
  rw [ifitsCalcLoop_mand t axes u I axes.length 0 (le_refl _), Nat.zero_add]

/-- The reversed-suffix multiplier of the writer's loop, written over the
forward extents: dropping the last of the reversed tail is taking a prefix of
the forward tail. -/
theorem dropLast_reverse_drop (axes : List Nat) (d : Nat)
    (hd : d < axes.length) :
    (axes.reverse.drop d).dropLast =
      ((axes.drop 1).take (axes.length - 1 - d)).reverse := by
  apply List.ext_getElem?
  intro i
  have hlenL : (axes.reverse.drop d).dropLast.length = axes.length - d - 1 := by
    simp only [List.length_dropLast, List.length_drop, List.length_reverse]
  have hlenR : (((axes.drop 1).take (axes.length - 1 - d)).reverse).length =
      axes.length - 1 - d := by
    simp only [List.length_reverse, List.length_take, List.length_drop]
    omega
  rcases Nat.lt_or_ge i (axes.length - 1 - d) with hi | hi
  · rw [List.dropLast_eq_take]
    rw [List.getElem?_take_of_lt (by
      simp only [List.length_drop, List.length_reverse]
      omega)]
    rw [List.getElem?_drop]
    rw [List.getElem?_reverse (by omega)]
    rw [List.getElem?_reverse (by
      simp only [List.length_take, List.length_drop]
      omega)]
    rw [List.length_take]
    rw [List.getElem?_take_of_lt (by
      simp only [List.length_drop]
      omega)]
    rw [List.getElem?_drop]
    congr 1
    simp only [List.length_reverse, List.length_drop]
    omega
  · rw [List.getElem?_eq_none (by omega), List.getElem?_eq_none (by omega)]

/-- The writer's offset loop equals the reader's offset sum over the same
extents (both implement the same reversed-suffix products). -/
theorem calcLoop_eq_sumSpec (axes : List Nat) :
    ∀ (I : List Nat) (d : Nat), d + I.length ≤ axes.length →
    ofitsCalcOffset.calcLoop (axes.reverse.drop d) I =
      ifitsSumSpec axes I (axes.length - d)
  | [], d, h => by rw [ofitsCalcOffset.calcLoop, ifitsSumSpec]
  | i :: rest, d, h => by
    simp only [List.length_cons] at h
    rw [ofitsCalcOffset.calcLoop, ifitsSumSpec]
    have hd : d < axes.length := by omega
    have h1 : (axes.reverse.drop d).tail = axes.reverse.drop (d + 1) := by
      rw [List.tail_drop]
    rw [h1, calcLoop_eq_sumSpec axes rest (d + 1) (by omega)]
    rw [dropLast_reverse_drop axes d hd, listProd_reverse]
    have h2 : axes.length - 1 - d = axes.length - d - 1 := by omega
    have h3 : axes.length - (d + 1) = axes.length - d - 1 := by omega
    rw [h2, h3]

/-- Unpacking a successful writer `calculate_offset`. -/
theorem ofitsCalcOffset_ok {naxis index : List Nat} {es co : Nat}
    (h : ofitsCalcOffset naxis es index = .ok co) :
    index ≠ [] ∧ index.length ≤ naxis.length ∧
    co = ofitsCalcOffset.calcLoop naxis.reverse index * es := by
  cases index with
  | nil => cases naxis <;> simp [ofitsCalcOffset] at h
  | cons i0 irest =>
    cases naxis with
    | nil => simp [ofitsCalcOffset] at h
    | cons n0 nrest =>
      rw [ofitsCalcOffset] at h
      split at h
      · exact absurd h (by simp)
      split at h
      · exact absurd h (by simp)
      rename_i h1 h2
      simp only [Except.ok.injEq] at h
      refine ⟨by simp, ?_, h.symm⟩
      simp only [List.length_cons, gt_iff_lt, not_lt] at h2
      simpa using h2

/-! ## Reader lemmas: parsing the header block the writer produced -/

theorem parseRecord_endRecord : parseRecord endRecord = (kEND, []) := by decide

theorem naxisParsed_length : ∀ (axes : List Nat) (j : Nat),
    (naxisParsed axes j).length = axes.length
  | [], _ => rfl
  | n :: rest, j => by
    rw [naxisParsed, List.length_cons, naxisParsed_length rest (j + 1),
      List.length_cons]

theorem naxisParsed_getElem? : ∀ (axes : List Nat) (j k : Nat),
    k < axes.length → (naxisParsed axes j)[k]? =
      some (kNAXIS ++ natRepr (j + k), natRepr (axes.getD k 0))
  | [], j, k, h => by simp at h
  | n :: rest, j, 0, h => by simp [naxisParsed]
  | n :: rest, j, k + 1, h => by
    rw [naxisParsed, List.getElem?_cons_succ,
      naxisParsed_getElem? rest (j + 1) k (by simp at h; omega)]
    have h1 : j + 1 + k = j + (k + 1) := by omega
    rw [h1, List.getD_cons_succ]

theorem mandParsed_length (t : FitsType) (axes : List Nat) :
    (mandParsed t axes).length = axes.length + 4 := by
  rw [mandParsed]
  simp [naxisParsed_length]

theorem key_chars_NAXISj (m : Nat) :
    ∀ c ∈ kNAXIS ++ natRepr m, isWsB c = false ∧ c ≠ 61 := by
  intro c hc
  rcases List.mem_append.mp hc with h | h
  · simp only [kNAXIS, List.mem_cons, List.not_mem_nil, or_false] at h
    rcases h with rfl | rfl | rfl | rfl | rfl <;> exact ⟨by decide, by decide⟩
  · have := mem_natRepr h
    exact ⟨not_isWsB_of_digit this.1, by omega⟩

theorem val_chars_natRepr (m : Nat) :
    ∀ c ∈ natRepr m, c ≠ 32 ∧ c ≠ 61 ∧ c ≠ 47 := by
  intro c hc
  have := mem_natRepr hc
  exact ⟨by omega, by omega, by omega⟩

/-- Parsing the `k`-th mandatory record recovers the `k`-th mandatory header
pair, and its keyword is never `END`. -/
theorem parseRecord_mandRecord {t : FitsType} {axes : List Nat} {k : Nat}
    (hk : k < axes.length + 4) (hL : axes.length ≤ 31)
    (hbnd : ∀ n ∈ axes, n < 2 ^ 31) :
    (mandParsed t axes)[k]? = some (parseRecord (mandRecord t axes k)) ∧
    (parseRecord (mandRecord t axes k)).1 ≠ kEND := by
  have hnax2 : (natRepr axes.length).length ≤ 2 :=
    natRepr_length_le (by omega) (by omega)
  rcases Nat.lt_or_ge k 3 with hk3 | hk3
  · interval_cases k
    · rw [show mandRecord t axes 0 = mkRecord kSIMPLE kT from rfl,
        show parseRecord (mkRecord kSIMPLE kT) = (kSIMPLE, kT) from by decide]
      exact ⟨rfl, by decide⟩
    · rw [show mandRecord t axes 1 = mkRecord kBITPIX (bitpixRepr t) from rfl,
        show parseRecord (mkRecord kBITPIX (bitpixRepr t)) =
          (kBITPIX, bitpixRepr t) from by cases t <;> decide]
      exact ⟨rfl, show kBITPIX ≠ kEND from by decide⟩
    · rw [show mandRecord t axes 2 = mkRecord kNAXIS (natRepr axes.length)
        from rfl]
      rw [parseRecord_mkRecord (by decide) (by decide) (by decide)
        (val_chars_natRepr _) (by omega)]
      exact ⟨by simp [mandParsed], show kNAXIS ≠ kEND from by decide⟩
  rcases Nat.lt_or_ge k (3 + axes.length) with hkm | hkm
  · obtain ⟨k', rfl⟩ : ∃ k', k = k' + 3 := ⟨k - 3, by omega⟩
    have hrec : mandRecord t axes (k' + 3) =
        mkRecord (kNAXIS ++ natRepr (k' + 1)) (natRepr (axes.getD k' 0)) := by
      rw [mandRecord, if_neg (by omega), if_neg (by omega), if_neg (by omega),
        if_pos (by omega)]
      have h1 : k' + 3 - 2 = k' + 1 := by omega
      have h2 : k' + 3 - 3 = k' := by omega
      rw [h1, h2]
    have hk'L : k' < axes.length := by omega
    have hreplen : (natRepr (k' + 1)).length ≤ 2 :=
      natRepr_length_le (by omega) (by omega)
    have hget : axes.getD k' 0 = axes[k'] := by
      rw [List.getD_eq_getElem?_getD, List.getElem?_eq_getElem hk'L]
      rfl
    have hvlt : axes.getD k' 0 < 10 ^ 10 := by
      rw [hget]
      have := hbnd axes[k'] (List.getElem_mem hk'L)
      omega
    have hvlen : (natRepr (axes.getD k' 0)).length ≤ 28 := by
      have := natRepr_length_le (n := axes.getD k' 0) (k := 10) (by omega) hvlt
      omega
    have hklen : (kNAXIS ++ natRepr (k' + 1)).length ≤ 7 := by
      simp only [List.length_append, kNAXIS, List.length_cons, List.length_nil]
      omega
    have hklen5 : 5 ≤ (kNAXIS ++ natRepr (k' + 1)).length := by
      simp only [List.length_append, kNAXIS, List.length_cons, List.length_nil]
      omega
    rw [hrec, parseRecord_mkRecord hklen5 hklen (key_chars_NAXISj _)
      (val_chars_natRepr _) hvlen]
    constructor
    · rw [mandParsed]
      rw [show k' + 3 = (k' + 2) + 1 from by omega, List.getElem?_cons_succ,
        show k' + 2 = (k' + 1) + 1 from by omega, List.getElem?_cons_succ,
        show k' + 1 = k' + 1 from rfl, List.getElem?_cons_succ]
      rw [List.getElem?_append_left (by rw [naxisParsed_length]; omega)]
      rw [naxisParsed_getElem? axes 1 k' hk'L]
      have : 1 + k' = k' + 1 := by omega
      rw [this]
    · intro hc
      have := congrArg List.length hc
      simp only [List.length_append, kNAXIS, kEND, List.length_cons,
        List.length_nil] at this
      omega
  · have hkL : k = axes.length + 3 := by omega
    subst hkL
    have hrec : mandRecord t axes (axes.length + 3) = mkRecord kEXTEND kT := by
      rw [mandRecord, if_neg (by omega), if_neg (by omega), if_neg (by omega),
        if_neg (by omega)]
    rw [hrec,
      show parseRecord (mkRecord kEXTEND kT) = (kEXTEND, kT) from by decide]
    constructor
    · rw [mandParsed]
      rw [show axes.length + 3 = (axes.length + 2) + 1 from by omega,
        List.getElem?_cons_succ,
        show axes.length + 2 = (axes.length + 1) + 1 from by omega,
        List.getElem?_cons_succ, List.getElem?_cons_succ]
      rw [List.getElem?_append_right (by rw [naxisParsed_length])]
      rw [naxisParsed_length]
      simp
    · decide

/-- The record loop of `extract_next_HDU` walks exactly the populated slots:
parsed pairs accumulate in order and the loop stops at the `END` slot. -/
theorem extractHDUAux_slots {f : FileT} {P c : Nat}
    {kvs : List (List Nat × List Nat)} (hlen : kvs.length = c)
    (hslot : ∀ k, k < c → ∃ r, readBytes f (P + 80 * k) 80 = some r ∧
      kvs[k]? = some (parseRecord r) ∧ (parseRecord r).1 ≠ kEND)
    (hendr : readBytes f (P + 80 * c) 80 = some endRecord) :
    ∀ (fuel s : Nat) (acc : List (List Nat × List Nat)), s ≤ c →
      c + 1 - s ≤ fuel →
      extractHDUAux f fuel (P + 80 * s) acc = .ok (acc ++ kvs.drop s, P + 80 * c)
  | 0, s, acc, hs, hf => by omega
  | fuel + 1, s, acc, hs, hf => by
    rw [extractHDUAux]
    rcases Nat.eq_or_lt_of_le hs with rfl | hlt
    · rw [hendr]
      simp only [parseRecord_endRecord, if_pos]
      rw [List.drop_eq_nil_of_le (by omega), List.append_nil]
    · obtain ⟨r, hr, hkv, hne⟩ := hslot s hlt
      rw [hr]
      simp only [if_neg hne]
      have hstep : P + 80 * s + 80 = P + 80 * (s + 1) := by ring
      rw [hstep, extractHDUAux_slots hlen hslot hendr fuel (s + 1)
        (acc ++ [parseRecord r]) (by omega) (by omega)]
      have hsl : s < kvs.length := by omega
      have hkv' : kvs[s] = parseRecord r := by
        rw [List.getElem?_eq_getElem hsl] at hkv
        exact Option.some.inj hkv
      rw [List.drop_eq_getElem_cons hsl, hkv', List.append_assoc]
      rfl

/-- Stringing the user slots of an HDU into a list of records. -/
theorem exists_user_records {f : FileT} {O L : Nat} {US : List Nat → Prop} :
    ∀ (d : Nat),
    (∀ k, L ≤ k → k < L + d → ∃ r, readBytes f (O + 80 * k) 80 = some r ∧ US r) →
    ∃ us : List (List Nat), us.length = d ∧
      ∀ j, j < d → ∃ r, us[j]? = some r ∧
        readBytes f (O + 80 * (L + j)) 80 = some r ∧ US r
  | 0, h => ⟨[], rfl, fun j hj => absurd hj (by omega)⟩
  | d + 1, h => by
    obtain ⟨us, hlen, hus⟩ :=
      exists_user_records d (fun k h1 h2 => h k h1 (by omega))
    obtain ⟨r, hr, hU⟩ := h (L + d) (by omega) (by omega)
    refine ⟨us ++ [r], by simp [hlen], ?_⟩
    intro j hj
    rcases Nat.lt_or_ge j d with hlt | hge
    · obtain ⟨r', h1, h2, h3⟩ := hus j hlt
      exact ⟨r', by rw [List.getElem?_append_left (by omega)]; exact h1, h2, h3⟩
    · have hjd : j = d := by omega
      subst hjd
      refine ⟨r, ?_, hr, hU⟩
      rw [List.getElem?_append_right (by omega), hlen]
      simp

/-- Extracting the header block of a writer HDU that satisfies the header
invariant: the reader recovers the mandatory pairs followed by the parsed user
records, stopping at the `END` slot. -/
theorem extractHDU_of_inv {f : FileT} {US : List Nat → Prop} {t : FitsType}
    {axes : List Nat} {off : Nat} {h : OHdu}
    (hInv : HduInv f US t axes off h) (hL : axes.length ≤ 31)
    (hbnd : ∀ n ∈ axes, n < 2 ^ 31)
    (hUS : ∀ r, US r → GoodUserKV (parseRecord r)) :
    ∃ ukv : List (List Nat × List Nat), (∀ kv ∈ ukv, GoodUserKV kv) ∧
      ∀ fuel, h.headersWritten + 1 ≤ fuel →
      extractHDUAux f fuel off [] =
        .ok (mandParsed t axes ++ ukv, off + 80 * h.headersWritten) := by
  have hcl := hInv.hcl
  obtain ⟨us, huslen, hus⟩ := @exists_user_records f off (axes.length + 4) US
    (h.headersWritten - (axes.length + 4))
    (fun k h1 h2 => hInv.huser k h1 (by omega))
  refine ⟨us.map parseRecord, ?_, ?_⟩
  · intro kv hkv
    obtain ⟨r, hrmem, hrkv⟩ := List.mem_map.mp hkv
    obtain ⟨j, hj⟩ := List.mem_iff_getElem?.mp hrmem
    have hjlt : j < us.length := by
      by_contra hc
      rw [List.getElem?_eq_none (by omega)] at hj
      exact absurd hj (by simp)
    obtain ⟨r', h1, h2, h3⟩ := hus j (by omega)
    rw [hj] at h1
    have : r = r' := Option.some.inj h1
    subst this
    rw [← hrkv]
    exact hUS r h3
  · intro fuel hfuel
    have hmain := @extractHDUAux_slots f off h.headersWritten
      (mandParsed t axes ++ us.map parseRecord)
      (by
        rw [List.length_append, List.length_map, mandParsed_length, huslen]
        omega)
      (by
        intro k hk
        rcases Nat.lt_or_ge k (axes.length + 4) with hkm | hku
        · obtain ⟨h1, h2⟩ := parseRecord_mandRecord (t := t) hkm hL hbnd
          exact ⟨mandRecord t axes k, hInv.hmand k hkm,
            by rw [List.getElem?_append_left (by rw [mandParsed_length]; omega)]
               exact h1, h2⟩
        · obtain ⟨r, h1, h2, h3⟩ := hus (k - (axes.length + 4)) (by omega)
          have hread : readBytes f (off + 80 * k) 80 = some r := by
            have : axes.length + 4 + (k - (axes.length + 4)) = k := by omega
            rw [this] at h2
            exact h2
          refine ⟨r, hread, ?_, (hUS r h3).1⟩
          rw [List.getElem?_append_right (by rw [mandParsed_length]; omega),
            mandParsed_length, List.getElem?_map, h1]
          rfl)
      hInv.hend fuel 0 [] (by omega) (by omega)
    simpa using hmain

/-! ## Reader lemmas: the HDU-iteration loop -/

theorem planEnd_last : ∀ (s : List (FitsType × List Nat)) (cur i : Nat)
    (t : FitsType) (axes : List Nat), i + 1 = s.length → s[i]? = some (t, axes) →
    planEnd s cur = (planOffsets s cur).getD i 0 + hduSpan t axes
  | [], cur, i, t, axes, h, hi => by simp at hi
  | e :: rest, cur, 0, t, axes, h, hi => by
    obtain ⟨t', axes'⟩ := e
    simp only [List.getElem?_cons_zero, Option.some.injEq, Prod.mk.injEq] at hi
    obtain ⟨rfl, rfl⟩ := hi
    have hrest : rest = [] := by
      simp only [List.length_cons] at h
      exact List.eq_nil_of_length_eq_zero (by omega)
    subst hrest
    rw [planEnd, planEnd, planOffsets]
    simp
  | e :: rest, cur, i + 1, t, axes, h, hi => by
    obtain ⟨t', axes'⟩ := e
    simp only [List.getElem?_cons_succ] at hi
    rw [planEnd, planOffsets, List.getD_cons_succ]
    exact planEnd_last rest _ i t axes (by simp at h; omega) hi

theorem planOffsets_entry_ge_mul : ∀ (s : List (FitsType × List Nat))
    (cur j o : Nat), (planOffsets s cur)[j]? = some o → cur + 2880 * j ≤ o
  | [], cur, j, o, h => by simp [planOffsets] at h
  | e :: rest, cur, 0, o, h => by
    obtain ⟨t, axes⟩ := e
    simp [planOffsets] at h
    omega
  | e :: rest, cur, j + 1, o, h => by
    obtain ⟨t, axes⟩ := e
    simp only [planOffsets, List.getElem?_cons_succ] at h
    have := planOffsets_entry_ge_mul rest (cur + hduSpan t axes) j o h
    have hs := hduSpan_ge t axes
    omega

theorem elemSizeOfBitpix_of (t : FitsType) :
    elemSizeOfBitpix (bitpixOf t) = .ok (sizeOfT t) := by
  cases t <;> decide

/-- The reader's constructor loop, run on a writer state satisfying the
invariant, parses one `RHdu` per remaining schema entry: the headers are the
mandatory pairs followed by benign user pairs, and the data offset is the
planned offset plus one header block. -/
theorem readFitsAux_inv {schema : List (FitsType × List Nat)}
    {US : Nat → List Nat → Prop} {S : FileT × List OHdu}
    (hwf : SchemaWF schema) (hI : WInv schema US S)
    (hUS : ∀ i r, US i r → GoodUserKV (parseRecord r)) :
    ∀ (k : Nat), 0 < k → ∀ (i : Nat), i + k = schema.length →
    ∀ (acc : List RHdu) (fuel : Nat), k ≤ fuel →
    ∃ rs : List RHdu,
      readFitsAux S.1 fuel (planOffsetAt schema i) acc = .ok (acc ++ rs) ∧
      rs.length = k ∧
      (∀ j t axes, schema[i + j]? = some (t, axes) →
        ∃ r ukv, rs[j]? = some r ∧
          r.headers = mandParsed t axes ++ ukv ∧
          (∀ kv ∈ ukv, GoodUserKV kv) ∧
          r.offset = planOffsetAt schema (i + j) + 2880) := by
  intro k
  induction k with
  | zero => intro h; exact absurd h (lt_irrefl 0)
  | succ k ih =>
    intro _ i hik acc fuel hfuel
    obtain ⟨fuel', rfl⟩ : ∃ fuel', fuel = fuel' + 1 := ⟨fuel - 1, by omega⟩
    have hilen : i < schema.length := by omega
    obtain ⟨⟨t, axes⟩, hie⟩ : ∃ e, schema[i]? = some e :=
      ⟨schema[i], List.getElem?_eq_getElem hilen⟩
    obtain ⟨h, hh, hInv⟩ := hI.hhdu i t axes hie
    have hmem : (t, axes) ∈ schema := by
      have hg : schema[i] = (t, axes) := by
        rw [List.getElem?_eq_getElem hilen] at hie
        exact Option.some.inj hie
      rw [← hg]
      exact List.getElem_mem hilen
    obtain ⟨hne, hpos, hprod, hL31⟩ := hwf (t, axes) hmem
    simp only at hne hpos hprod hL31
    have hbnd : ∀ n ∈ axes, n < 2 ^ 31 := fun n hn =>
      lt_of_le_of_lt (le_listProd_of_mem hn hpos) hprod
    obtain ⟨ukv, hgood, hext⟩ := extractHDU_of_inv hInv hL31 hbnd (hUS i)
    set O := planOffsetAt schema i with hO
    set c := h.headersWritten with hc
    have hOmod : O % 2880 = 0 := by
      have := planOffsets_entry_mod schema 0 i O (planOffsetAt_eq hilen)
      omega
    have hL1 : 1 ≤ axes.length := by
      cases axes with
      | nil => exact absurd rfl hne
      | cons a l => simp
    have hcl : axes.length + 4 ≤ c := hInv.hcl
    have hcu : c ≤ 35 := hInv.hcu
    have hszEnd := readBytes_bound hInv.hend
    have hfuelExt : c + 1 ≤ fileSize S.1 / 80 + 1 := by
      have h80 : (c + 1) * 80 ≤ fileSize S.1 := by omega
      have := (Nat.le_div_iff_mul_le (by norm_num : 0 < 80)).mpr h80
      omega
    have hround : roundOffset (O + 80 * c) = O + 2880 :=
      roundOffset_add_block hOmod (by omega) (by omega)
    have hspan : hduSpan t axes = 2880 + roundOffset (listProd axes * sizeOfT t) :=
      rfl
    rw [readFitsAux]
    simp only [bind, Except.bind]
    rw [hext (fileSize S.1 / 80 + 1) hfuelExt]
    dsimp only
    rw [hround, calculateDataBlockSize_mand t axes ukv]
    dsimp only
    rw [roundOffset_of_mod (by omega)]
    rcases Nat.eq_zero_or_pos k with rfl | hkpos
    · have hlast : i + 1 = schema.length := by omega
      have hplanEq : planEnd schema 0 = O + hduSpan t axes := by
        have := planEnd_last schema 0 i t axes hlast hie
        rw [this, hO, planOffsetAt]
      have hstop : fileSize S.1 ≤ O + 2880 +
          roundOffset (listProd axes * sizeOfT t) := by
        have hsz := hI.hsz
        omega
      rw [if_pos hstop]
      refine ⟨[⟨mandParsed t axes ++ ukv, O + 2880⟩], rfl, rfl, ?_⟩
      intro j t' axes' hj
      have hjlt : i + j < schema.length := by
        by_contra hcj
        rw [List.getElem?_eq_none (by omega)] at hj
        exact absurd hj (by simp)
      have hj0 : j = 0 := by omega
      subst hj0
      rw [Nat.add_zero, hie] at hj
      obtain ⟨rfl, rfl⟩ : t = t' ∧ axes = axes' := by
        have := Option.some.inj hj
        exact ⟨congrArg Prod.fst this, congrArg Prod.snd this⟩
      refine ⟨⟨mandParsed t axes ++ ukv, O + 2880⟩, ukv, by simp, rfl, hgood, ?_⟩
      show O + 2880 = planOffsetAt schema (i + 0) + 2880
      simp [hO]
    · have hi1 : i + 1 < schema.length := by omega
      obtain ⟨⟨t2, axes2⟩, hie2⟩ : ∃ e, schema[i + 1]? = some e :=
        ⟨schema[i + 1], List.getElem?_eq_getElem hi1⟩
      obtain ⟨h2, hh2, hInv2⟩ := hI.hhdu (i + 1) t2 axes2 hie2
      have hOsucc : planOffsetAt schema (i + 1) = O + hduSpan t axes := by
        have hsucc := planOffsets_succ schema 0 i t axes hie hi1
        rw [planOffsetAt_eq hilen] at hsucc
        simp only [Option.map_some'] at hsucc
        have hthis := planOffsetAt_eq hi1
        exact Option.some.inj (hthis.symm.trans hsucc)
      have hfs2 := readBytes_bound hInv2.hend
      have hcont : ¬ (fileSize S.1 ≤ O + 2880 +
          roundOffset (listProd axes * sizeOfT t)) := by
        intro hle
        have : planOffsetAt schema (i + 1) + 80 * h2.headersWritten + 80 ≤
            fileSize S.1 := hfs2
        omega
      rw [if_neg hcont]
      have hnext : O + 2880 + roundOffset (listProd axes * sizeOfT t) =
          planOffsetAt schema (i + 1) := by
        rw [hOsucc, hduSpan]
        ring
      rw [hnext]
      obtain ⟨rs', hrun', hlen', hfacts'⟩ := ih hkpos (i + 1) (by omega)
        (acc ++ [⟨mandParsed t axes ++ ukv, O + 2880⟩]) fuel' (by omega)
      rw [hrun']
      refine ⟨⟨mandParsed t axes ++ ukv, O + 2880⟩ :: rs', by simp, by
        simp [hlen'], ?_⟩
      intro j t' axes' hj
      cases j with
      | zero =>
        rw [Nat.add_zero, hie] at hj
        obtain ⟨rfl, rfl⟩ : t = t' ∧ axes = axes' := by
          have := Option.some.inj hj
          exact ⟨congrArg Prod.fst this, congrArg Prod.snd this⟩
        refine ⟨⟨mandParsed t axes ++ ukv, O + 2880⟩, ukv, by simp, rfl, hgood,
          ?_⟩
        show O + 2880 = planOffsetAt schema (i + 0) + 2880
        simp [hO]
      | succ j' =>
        have hsh : i + (j' + 1) = (i + 1) + j' := by omega
        rw [hsh] at hj
        obtain ⟨r, ukv2, h1, h2', h3, h4⟩ := hfacts' j' t' axes' hj
        exact ⟨r, ukv2, by rw [List.getElem?_cons_succ]; exact h1, h2', h3,
          by rw [hsh, h4]⟩

/-- Opening the file of a writer state that satisfies the invariant succeeds
and yields one parsed HDU per schema entry. -/
theorem ifitsOpen_inv {schema : List (FitsType × List Nat)}
    {US : Nat → List Nat → Prop} {S : FileT × List OHdu}
    (hwf : SchemaWF schema) (hI : WInv schema US S)
    (hUS : ∀ i r, US i r → GoodUserKV (parseRecord r))
    (hne : schema ≠ []) :
    ∃ rs : List RHdu, ifitsOpen S.1 = .ok rs ∧ rs.length = schema.length ∧
      ∀ j t axes, schema[j]? = some (t, axes) →
        ∃ r ukv, rs[j]? = some r ∧
          r.headers = mandParsed t axes ++ ukv ∧
          (∀ kv ∈ ukv, GoodUserKV kv) ∧
          r.offset = planOffsetAt schema j + 2880 := by
  have hlen : 0 < schema.length := List.length_pos.mpr hne
  have hfuel : schema.length ≤ fileSize S.1 / 2880 + 1 := by
    set i := schema.length - 1 with hi
    have hilen : i < schema.length := by omega
    obtain ⟨⟨t, axes⟩, hie⟩ : ∃ e, schema[i]? = some e :=
      ⟨schema[i], List.getElem?_eq_getElem hilen⟩
    obtain ⟨h, hh, hInv⟩ := hI.hhdu i t axes hie
    have hge := planOffsets_entry_ge_mul schema 0 i _ (planOffsetAt_eq hilen)
    have hszEnd := readBytes_bound hInv.hend
    have h2880 : 2880 * i ≤ fileSize S.1 := by omega
    have := (Nat.le_div_iff_mul_le (by norm_num : 0 < 2880)).mpr
      (by omega : i * 2880 ≤ fileSize S.1)
    omega
  obtain ⟨rs, hrun, hlen', hfacts⟩ := readFitsAux_inv hwf hI hUS schema.length
    hlen 0 (by omega) [] (fileSize S.1 / 2880 + 1) hfuel
  rw [planOffsetAt_zero] at hrun
  refine ⟨rs, ?_, hlen', ?_⟩
  · rw [ifitsOpen, hrun]
    rfl
  · intro j t axes hj
    have := hfacts j t axes (by rw [Nat.zero_add]; exact hj)
    simpa using this

/-! ## Claim C1 -/

/-- **C1** (code bug).  The source's `calculate_offset` does not compute the
specified row-major mapping: at axes `[2,3,4]`, element size 1 and index
`[0,1,0]` (a valid index), both the writer's and the reader's
`calculate_offset` return byte/element offset `3` — the second index is
multiplied by `n₂ = 3` — while the specified mapping
`Σ i_d · Π_{j=d+2..naxis} n_j` gives `4` (the second index times `n₃ = 4`).
The two agree only when the trailing extents are symmetric, as in the test
fixture `[100,50,50]`. -/
theorem c1_calculate_offset_failing_input :
    ofitsCalcOffset [2, 3, 4] 1 [0, 1, 0] = .ok 3 ∧
    ifitsCalcOffset
      [(kNAXIS, natRepr 3), (kNAXIS ++ natRepr 1, natRepr 2),
       (kNAXIS ++ natRepr 2, natRepr 3), (kNAXIS ++ natRepr 3, natRepr 4)]
      [0, 1, 0] = .ok 3 ∧
    offsetOfSpec 1 [2, 3, 4] [0, 1, 0] = 4 := by decide

/-! ## Claim C2 -/

/-- **C2** (corrected).  The data round trip holds under provisos the claim
omits: for a well-formed schema, after any run of writer operations whose
header `set`s write benign records (keyword not `END` and not a
case-insensitive duplicate of `BITPIX`/`NAXIS`/`NAXISj`) and leave every HDU's
record count at most 35, a successful `write_data` of bytes `B` at index `idx`
of HDU `n` — the last write — produces a file the reader opens successfully,
and `read_data` of `len(B)` bytes at the same index of the same HDU returns
`B` byte-for-byte with `len(B)` bytes transferred.  Without the provisos the
claim fails (see the counterexample: a 36-record header followed by a data
write at index `[0]` destroys the displaced `END` record and the reader throws
before any read). -/
theorem c2_write_read_roundtrip {schema : List (FitsType × List Nat)}
    {ops : List WOp} {S₀ S₁ : FileT × List OHdu} {n : Nat} {t : FitsType}
    {axes idx B : List Nat} {f₂ : FileT} {w : Nat} {h : OHdu}
    (hwf : SchemaWF schema)
    (hmk : mkOfits schema = .ok S₀)
    (hrun : runOps S₀ ops = .ok S₁)
    (hops : ∀ op ∈ ops, ∀ m k v, op = WOp.set m k v →
      GoodUserKV (parseRecord (mkRecord k v)))
    (hcap : ∀ (i : Nat) (h' : OHdu), S₁.2[i]? = some h' →
      h'.headersWritten ≤ 35)
    (hn : schema[n]? = some (t, axes))
    (hh : S₁.2[n]? = some h)
    (hwd : writeDataOp S₁.1 h idx B = .ok (f₂, w)) :
    w = B.length ∧
    ∃ rs : List RHdu, ifitsOpen f₂ = .ok rs ∧ rs.length = schema.length ∧
      ∃ r, rs[n]? = some r ∧
        applyReadData f₂ r idx B.length = .ok (B, B.length) := by
  -- the writer invariant with benign user records, threaded to the final file
  have hI₀ : WInv schema (fun _ r => GoodUserKV (parseRecord r)) S₀ := by
    obtain ⟨f0, hs0⟩ := S₀
    exact mkOfits_inv hmk hwf
  have hI₁ : WInv schema (fun _ r => GoodUserKV (parseRecord r)) S₁ :=
    runOps_inv ops hrun hI₀
      (fun op hop m k v he => hops op hop m k v he) hcap
  have hstep : stepOp S₁ (WOp.writeData n idx B) = .ok (f₂, S₁.2) := by
    simp only [stepOp]
    rw [hh]
    simp only [bind, Except.bind]
    rw [hwd]
  have hI₂ : WInv schema (fun _ r => GoodUserKV (parseRecord r)) (f₂, S₁.2) :=
    stepOp_inv hI₁ hstep (fun m k v hop => by simp at hop)
      (fun i h' hi => hcap i h' hi)
  have hnlen : n < schema.length := by
    by_contra hc
    rw [List.getElem?_eq_none (by omega)] at hn
    exact absurd hn (by simp)
  have hne : schema ≠ [] := by
    intro hcon
    rw [hcon] at hnlen
    simp at hnlen
  -- the reader parses every HDU of the final file
  obtain ⟨rs, hopen, hlen, hfacts⟩ :=
    ifitsOpen_inv hwf hI₂ (fun _ r hr => hr) hne
  obtain ⟨r, ukv, hrn, hheaders, hgood, hoffr⟩ := hfacts n t axes hn
  -- the writer-side facts about the successful write
  obtain ⟨h', hh', hInv₁⟩ := hI₁.hhdu n t axes hn
  rw [hh] at hh'
  have hhh : h = h' := by simpa using hh'
  subst hhh
  obtain ⟨co, hco, hbound, hf2, hw⟩ := writeDataOp_ok hwd
  rw [hInv₁.hax, hInv₁.het] at hco
  obtain ⟨hidxne, hidxlen, hcoeq⟩ := ofitsCalcOffset_ok hco
  have hmem : (t, axes) ∈ schema := by
    have hg : schema[n] = (t, axes) := by
      rw [List.getElem?_eq_getElem hnlen] at hn
      exact Option.some.inj hn
    rw [← hg]
    exact List.getElem_mem hnlen
  obtain ⟨hnenil, hpos, hprod, hL31⟩ := hwf (t, axes) hmem
  simp only at hnenil hpos hprod hL31
  -- the reader computes the same byte offset
  have hbridge : ifitsSumSpec axes idx axes.length =
      ofitsCalcOffset.calcLoop axes.reverse idx := by
    have := calcLoop_eq_sumSpec axes idx 0 (by omega)
    rw [List.drop_zero, Nat.sub_zero] at this
    exact this.symm
  refine ⟨hw, rs, hopen, hlen, r, hrn, ?_⟩
  rw [applyReadData]
  simp only [bind, Except.bind, hheaders, getBITPIX_mand, elemSizeOfBitpix_of]
  rw [imageReadData]
  simp only [bind, Except.bind, hheaders,
    ifitsCalcOffset_mand t axes ukv hidxlen, calculateDataBlockSize_mand]
  have hoffeq : sizeOfT t * ifitsSumSpec axes idx axes.length = co := by
    rw [hbridge, hcoeq]
    ring
  rw [hoffeq]
  have hdbs := hInv₁.hdbs
  have hle := le_roundOffset (listProd axes * sizeOfT t)
  rw [if_neg (by omega)]
  have hpos1 : r.offset + co = h.offset + 2880 + co := by
    rw [hoffr, hInv₁.hoff]
  rw [hpos1, hf2, readBytes_writeAt_self]

/-- Witness for C2: on schema `[(u8, [2,2])]` with no header `set`s, writing
`[7, 9]` at index `[1, 0]` and reading two bytes back at the same index
through the reader returns `[7, 9]`. -/
theorem c2_write_read_roundtrip_witness :
    (2 : Nat) = ([7, 9] : List Nat).length ∧
    ∃ rs : List RHdu, ifitsOpen c2wF2 = .ok rs ∧
      rs.length = [(FitsType.u8, [2, 2])].length ∧
      ∃ r, rs[0]? = some r ∧
        applyReadData c2wF2 r [1, 0] ([7, 9] : List Nat).length =
          .ok ([7, 9], ([7, 9] : List Nat).length) :=
  @c2_write_read_roundtrip [(FitsType.u8, [2, 2])] [] c2wS0 c2wS0 0
    FitsType.u8 [2, 2] [1, 0] [7, 9] c2wF2 2 c2wHdu
    (by
      intro e he
      simp only [List.mem_singleton] at he
      subst he
      exact ⟨by decide, by decide, by decide, by decide⟩)
    (by decide)
    rfl
    (by simp)
    (by
      intro i h' hi
      rcases Nat.lt_or_ge i 1 with h1 | h1
      · have hi0 : i = 0 := by omega
        subst hi0
        have hv : c2wS0.2[0]? = some c2wHdu := by decide
        rw [hv] at hi
        obtain rfl : c2wHdu = h' := Option.some.inj hi
        decide
      · rw [List.getElem?_eq_none (by
          have : c2wS0.2.length = 1 := by decide
          omega)] at hi
        exact absurd hi (by simp))
    (by decide)
    (by decide)
    (by decide)

set_option maxRecDepth 400000 in
/-- Counterexample for C2 as claimed: every operation is a legal writer call
that succeeds — thirty-one `set`s on a one-axis HDU (record count 36, `END`
re-emitted at byte 2880) and a one-byte `write_data` at the valid index `[0]`
(which overwrites the first byte of that displaced `END` record) — yet the
reader fails to open the resulting file (`read_at` throws at end of file while
still searching for `END`), so reading back the written byte is impossible. -/
theorem c2_counterexample :
    ((mkOfits [(FitsType.u8, [1])]).bind (fun S₀ =>
      (runOps S₀ c2cOps).map (fun S₁ => ifitsOpen S₁.1))) =
      .ok (.error .io) := by decide

/-- **C3 (amended).**  `write_data(index, bytes)` fails with `OutOfBounds`
exactly when `byte_off + len(bytes)` exceeds `product(axes) · elem_size` — the
*unrounded* data size, not the specification's
`roundup₂₈₈₀(product(axes) · |bitpix|/8)` — where `byte_off` is the offset the
source's `calculate_offset` computes; otherwise it performs a positional write
at `hdu.offset + 2880 + byte_off` and returns the number of bytes written. -/
theorem c3_write_data_bound {f f' : FileT} {t : FitsType} {axes : List Nat}
    {off : Nat} {h : OHdu} (hmk : mkOHdu f t axes off = .ok (f', h))
    {index B : List Nat} {co : Nat}
    (hco : ofitsCalcOffset axes (sizeOfT t) index = .ok co) :
    (B.length + co > listProd axes * sizeOfT t →
      writeDataOp f' h index B = .error .outOfBounds) ∧
    (B.length + co ≤ listProd axes * sizeOfT t →
      writeDataOp f' h index B =
        .ok (writeAt f' (off + 2880 + co) B, B.length)) := by
  have hst := mkOHdu_state hmk
  have hco' : ofitsCalcOffset h.naxis (sizeOfT h.elemType) index = .ok co := by
    rw [hst]; exact hco
  rw [writeDataOp_spec hco', hst]
  dsimp only
  constructor
  · intro hgt
    rw [if_pos hgt]
  · intro hle
    rw [if_neg (by omega)]

/-- **C3 (witness).** -/
theorem c3_write_data_bound_witness :
    writeDataOp c4File c4Hdu [1, 1] [7] =
      .ok (writeAt c4File (0 + 2880 + 4) [7], 1) ∧
    writeDataOp c4File c4Hdu [1, 1] [7, 8, 9] = .error .outOfBounds := by
  have hmk : mkOHdu [] FitsType.u8 [2, 3] 0 = .ok (c4File, c4Hdu) := rfl
  have hco : ofitsCalcOffset [2, 3] (sizeOfT .u8) [1, 1] = .ok 4 := rfl
  constructor
  · have h := (c3_write_data_bound (B := [7]) hmk hco).2 (by decide)
    simpa using h
  · exact (c3_write_data_bound (B := [7, 8, 9]) hmk hco).1 (by decide)

/-- **C3 (counterexample).**  On a `(u8, [1])` HDU, a 2-byte write at index
`[0]` (`byte_off = 0`) throws although the claim's bound
`byte_off + len ≤ roundup₂₈₈₀(product · elem_size) = 2880` holds: the source
checks against the unrounded size `1`. -/
theorem c3_counterexample :
    (mkOfits [(FitsType.u8, [1])]).bind
      (fun S => writeDataOp S.1
        (S.2.getD 0 { elemType := .u8, naxis := [], headersWritten := 0,
                      offset := 0, dataBlockSize := 0 }) [0] [99, 100]) =
      .error .outOfBounds ∧
    0 + 2 ≤ roundUpBlockSpec (listProd [1] * sizeOfT .u8) := by decide

/-! ## Claim C4 -/

/-- **C4 (amended).**  The boundary property holds for the **first** axis
only: on a constructed HDU with positive extents `n₁ :: rest`, writing a
single element at index `[n₁−1, 0, …, 0]` succeeds, and at `[n₁, 0, …, 0]`
fails with `OutOfBounds`.  (For later axes neither direction is guaranteed:
see the counterexample, where a single-element write at the maximal valid
index of axis 2 of `(f64, [1,5,1])` throws.) -/
theorem c4_first_axis_boundary {f f' : FileT} {t : FitsType} {n₁ : Nat}
    {rest : List Nat} {off : Nat} {h : OHdu}
    (hmk : mkOHdu f t (n₁ :: rest) off = .ok (f', h))
    (hpos : ∀ n ∈ n₁ :: rest, 0 < n) {B : List Nat}
    (hB : B.length = sizeOfT t) :
    writeDataOp f' h ((n₁ - 1) :: List.replicate rest.length 0) B =
      .ok (writeAt f' (off + 2880 + (n₁ - 1) * listProd rest * sizeOfT t) B,
        B.length) ∧
    writeDataOp f' h (n₁ :: List.replicate rest.length 0) B =
      .error .outOfBounds := by
  have hst := mkOHdu_state hmk
  have hP : 0 < listProd rest := listProd_pos (fun n hn => hpos n (by simp [hn]))
  have hs : 0 < sizeOfT t := sizeOfT_pos t
  have hn₁ : 0 < n₁ := hpos n₁ (by simp)
  have hco1 : ofitsCalcOffset h.naxis (sizeOfT h.elemType)
      ((n₁ - 1) :: List.replicate rest.length 0) =
      .ok ((n₁ - 1) * listProd rest * sizeOfT t) := by
    rw [hst]
    exact calcOffset_first_axis (by omega) rfl
  have hco2 : ofitsCalcOffset h.naxis (sizeOfT h.elemType)
      (n₁ :: List.replicate rest.length 0) =
      .ok (n₁ * listProd rest * sizeOfT t) := by
    rw [hst]
    exact calcOffset_first_axis (le_refl n₁) rfl
  constructor
  · rw [writeDataOp_spec hco1, hst]
    have hb : ¬(B.length + (n₁ - 1) * listProd rest * sizeOfT t >
        listProd (n₁ :: rest) * sizeOfT t) := by
      rw [listProd_cons, hB]
      obtain ⟨m, rfl⟩ : ∃ m, n₁ = m + 1 := ⟨n₁ - 1, by omega⟩
      have h1 : sizeOfT t ≤ listProd rest * sizeOfT t :=
        Nat.le_mul_of_pos_left _ hP
      have h2 : (m + 1) * listProd rest * sizeOfT t =
          m * listProd rest * sizeOfT t + listProd rest * sizeOfT t := by ring
      simp only [Nat.add_sub_cancel]
      omega
    rw [if_neg hb]
  · rw [writeDataOp_spec hco2, hst]
    have hb : B.length + n₁ * listProd rest * sizeOfT t >
        listProd (n₁ :: rest) * sizeOfT t := by
      rw [listProd_cons, hB]
      have : n₁ * (listProd rest * sizeOfT t) = n₁ * listProd rest * sizeOfT t := by
        ring
      omega
    rw [if_pos hb]

/-- **C4 (witness).** -/
theorem c4_first_axis_boundary_witness :
    writeDataOp c4File c4Hdu [1, 0] [5] =
      .ok (writeAt c4File (0 + 2880 + (2 - 1) * listProd [3] * sizeOfT .u8) [5],
        1) ∧
    writeDataOp c4File c4Hdu [2, 0] [5] = .error .outOfBounds := by
  have hmk : mkOHdu [] FitsType.u8 [2, 3] 0 = .ok (c4File, c4Hdu) := rfl
  have h := c4_first_axis_boundary hmk (by decide) (B := [5]) (by decide)
  exact ⟨by simpa using h.1, by simpa using h.2⟩

/-- **C4 (counterexample).**  Axis 2 of `(f64, [1,5,1])`: the index
`[0, 4, 0]` is the maximal valid index of that axis (`4 = n₂ − 1`), yet
writing one 8-byte element there throws `OutOfBounds` — so "writing at the
maximal valid index of each axis succeeds" is false — and hence also the
one-past-variant of the claim cannot characterise the failures. -/
theorem c4_counterexample :
    (mkOfits [(FitsType.f64, [1, 5, 1])]).bind
      (fun S => writeDataOp S.1
        (S.2.getD 0 { elemType := .u8, naxis := [], headersWritten := 0,
                      offset := 0, dataBlockSize := 0 }) [0, 4, 0]
        [1, 2, 3, 4, 5, 6, 7, 8]) = .error .outOfBounds ∧
    (0 < 1 ∧ 4 < 5 ∧ 0 < 1) := by decide

/-! ## Claim C5 -/

/-- **C5** (code bug).  The writer never pads the file to a 2880-byte
boundary: after constructing the schema `[(u8, [1])]` (and no data writes),
the file ends right after the `END` record, at 480 bytes — not a multiple of
2880.  The header and `END` records are in place; the data block is a sparse
hole that no write ever extends to the block boundary. -/
theorem c5_file_size_not_padded :
    (mkOfits [(FitsType.u8, [1])]).map (fun S => fileSize S.1) = .ok 480 ∧
    480 % 2880 ≠ 0 := by decide

/-! ## Claim C6 -/

/-- **C6.**  The layout planner computes `offsets[0] = 0` and
`offsets[i+1] = offsets[i] + 2880 + round_up_block(product(axes_i) ·
sizeof(type_i))`, with `round_up_block` exactly as the specification defines
it. -/
theorem c6_layout_plan (schema : List (FitsType × List Nat)) :
    (planOffsets schema 0).length = schema.length ∧
    (planOffsets schema 0)[0]? = (if schema.length = 0 then none else some 0) ∧
    ∀ i t axes, schema[i]? = some (t, axes) → i + 1 < schema.length →
      (planOffsets schema 0)[i + 1]? = ((planOffsets schema 0)[i]?).map
        (fun o => o + (2880 + roundUpBlockSpec (listProd axes * sizeOfT t))) := by
  refine ⟨planOffsets_length schema 0, planOffsets_zero schema 0, ?_⟩
  intro i t axes h h2
  have := planOffsets_succ schema 0 i t axes h h2
  rw [this]
  rfl

/-- **C6 (witness).**  The two-HDU schema of the repository's tests:
`offsets[1] = 0 + 2880 + round_up_block(200·300·1) = 63360`. -/
theorem c6_layout_plan_witness :
    (planOffsets [(FitsType.u8, [200, 300]), (FitsType.f32, [100, 50, 50])] 0)[1]? =
      some 63360 := by
  have h := (c6_layout_plan
    [(FitsType.u8, [200, 300]), (FitsType.f32, [100, 50, 50])]).2.2 0
    FitsType.u8 [200, 300] (by decide) (by decide)
  rw [h]
  decide

/-! ## Claim C7 -/

/-- **C7 (amended).**  For a schema entry with `naxis ≤ 31` axes the
constructor emits exactly `SIMPLE`, `BITPIX`, `NAXIS`, `NAXIS1..NAXISnaxis`,
`EXTEND`, `END`, in that order in slots `0 … naxis+4`, all inside the first
2880 bytes at the HDU's offset, leaving `headers_written = naxis + 4` (`END`
not counted); each subsequent `set`/`value_as` overwrites the `END` slot with
the new record, re-emits `END` one slot later and increments the count.
(For `naxis = 32` the records still fit but `END` lands at byte 2880 —
outside the first header block — see the counterexample.) -/
theorem c7_constructor_records {f f' : FileT} {t : FitsType} {axes : List Nat}
    {off : Nat} {h : OHdu} (hax : axes.length ≤ 31)
    (hmk : mkOHdu f t axes off = .ok (f', h)) :
    h.headersWritten = axes.length + 4 ∧
    (∀ k, k < axes.length + 4 →
      readBytes f' (off + 80 * k) 80 = some (mandRecord t axes k)) ∧
    readBytes f' (off + 80 * (axes.length + 4)) 80 = some endRecord ∧
    80 * (axes.length + 4) + 80 ≤ 2880 ∧
    (∀ key value, valueAsSet f' h key value =
      .ok (writeAt (writeAt f' (off + 80 * (axes.length + 4)) (mkRecord key value))
            (off + 80 * (axes.length + 5)) endRecord,
          { h with headersWritten := h.headersWritten + 1 })) := by
  have hst := mkOHdu_state hmk
  obtain ⟨hW, hslots, hendS, hsz⟩ := mkOHdu_file hmk
  refine ⟨by rw [hst], hslots, hendS, by omega, ?_⟩
  intro key value
  rw [valueAsSet, if_pos (by rw [hst]; dsimp only; omega)]
  rw [hst]
  dsimp only
  have p1 : (axes.length + 4) * 80 + off = off + 80 * (axes.length + 4) := by
    ring
  have p2 : (axes.length + 4 + 1) * 80 + off = off + 80 * (axes.length + 5) := by
    ring
  rw [p1, p2]

/-- **C7 (witness).**  The `(u8, [200,300])` HDU of §8 scenario 1: record
count 6 after construction, 7 after one `set`. -/
theorem c7_constructor_records_witness :
    c7Hdu.headersWritten = 6 ∧
    (valueAsSet c7File c7Hdu [88, 84, 69, 78, 83, 73, 79, 78]
        [84, 65, 66, 76, 69, 32]).map (fun p => p.2.headersWritten) =
      .ok 7 := by
  have hmk : mkOHdu [] FitsType.u8 [200, 300] 0 = .ok (c7File, c7Hdu) := rfl
  have h := c7_constructor_records (by decide) hmk
  have hc : c7Hdu.headersWritten = 6 := by
    rw [h.1]
    rfl
  refine ⟨hc, ?_⟩
  rw [h.2.2.2.2 [88, 84, 69, 78, 83, 73, 79, 78] [84, 65, 66, 76, 69, 32]]
  simp [Except.map, hc]

set_option maxRecDepth 100000 in
/-- **C7 (counterexample).**  With `naxis = 32` (extents all 1) the
constructor succeeds with `headers_written = 36 = naxis + 4`, but the `END`
record is written at byte offset 2880 — the first 80 bytes of the data
block, not inside the first 2880 bytes of the HDU. -/
theorem c7_counterexample :
    (mkOHdu [] FitsType.u8 (List.replicate 32 1) 0).map
      (fun p => (p.2.headersWritten, readBytes p.1 2880 80)) =
      .ok (36, some endRecord) := by decide

/-! ## Claim C8 -/

/-- **C8.**  A `set`/`value_as` call on a writer HDU succeeds — writing the
user record and re-emitting `END`, leaving `headers_written + 1` records — as
long as the resulting record count is at most 36 (i.e. the record lands
inside the 36-slot, 2880-byte header block); the attempt to add a 37th record
(the first whose slot starts at byte 36·80 = 2880) fails with `HeaderFull`. -/
theorem c8_header_full (f : FileT) (h : OHdu) (k v : List Nat) :
    (h.headersWritten + 1 ≤ 36 →
      valueAsSet f h k v =
        .ok (writeAt (writeAt f (h.headersWritten * 80 + h.offset) (mkRecord k v))
          ((h.headersWritten + 1) * 80 + h.offset) endRecord,
          { h with headersWritten := h.headersWritten + 1 })) ∧
    (h.headersWritten + 1 > 36 → valueAsSet f h k v = .error .headerFull) := by
  constructor
  · intro hle
    rw [valueAsSet, if_pos (by omega)]
  · intro hgt
    rw [valueAsSet, if_neg (by omega)]

/-- **C8 (witness).**  At 35 records the 36th is accepted; at 36 records the
37th is refused with `HeaderFull`. -/
theorem c8_header_full_witness :
    valueAsSet [] hdu35 kEXTEND kT =
      .ok (writeAt (writeAt [] (35 * 80 + 0) (mkRecord kEXTEND kT))
        ((35 + 1) * 80 + 0) endRecord,
        { hdu35 with headersWritten := 35 + 1 }) ∧
    valueAsSet [] hdu36 kEXTEND kT = .error .headerFull := by
  constructor
  · exact (c8_header_full [] hdu35 kEXTEND kT).1 (by decide)
  · exact (c8_header_full [] hdu36 kEXTEND kT).2 (by decide)

/-! ## Claim C9 -/

/-- **C9 (amended).**  On a writer HDU whose record count is exactly 35, a
`set`/`value_as` call succeeds: it writes the user record into the last
(36th) slot of the 2880-byte header block and the re-emitted `END` record at
`hdu.offset + 2880` — the first 80 bytes of the data block.  Provided no user
record written earlier (and none written now) is byte-for-byte the `END`
record, the 2880-byte header block then no longer contains an `END` record.
(The proviso is necessary: `value_as` with the 80-byte key `"END" + 77
spaces` plants a literal `END` record in a user slot — see the
counterexample.) -/
theorem c9_end_displaced {schema : List (FitsType × List Nat)} {ops : List WOp}
    {S0 S1 : FileT × List OHdu} {n : Nat} {t : FitsType} {axes : List Nat}
    {h : OHdu} {key value : List Nat} {f2 : FileT} {h2 : OHdu}
    (hwf : SchemaWF schema)
    (hmk : mkOfits schema = .ok S0)
    (hrun : runOps S0 ops = .ok S1)
    (hUS : ∀ op ∈ ops, ∀ m k v, op = WOp.set m k v → mkRecord k v ≠ endRecord)
    (hcounts : ∀ (i : Nat) (h' : OHdu), S1.2[i]? = some h' →
      h'.headersWritten ≤ 35)
    (hsch : schema[n]? = some (t, axes))
    (hn : S1.2[n]? = some h)
    (hc : h.headersWritten = 35)
    (hset : valueAsSet S1.1 h key value = .ok (f2, h2))
    (hkv : mkRecord key value ≠ endRecord) :
    h2.headersWritten = 36 ∧
    readBytes f2 (planOffsetAt schema n + 2800) 80 = some (mkRecord key value) ∧
    readBytes f2 (planOffsetAt schema n + 2880) 80 = some endRecord ∧
    (∀ j, j < 36 →
      readBytes f2 (planOffsetAt schema n + 80 * j) 80 ≠ some endRecord) := by
  have hI0 : WInv schema (fun _ r => r ≠ endRecord) S0 := mkOfits_inv hmk hwf
  have hI1 : WInv schema (fun _ r => r ≠ endRecord) S1 :=
    runOps_inv ops hrun hI0 (fun op ho m k v hop => hUS op ho m k v hop) hcounts
  obtain ⟨hlen, hhdu, hsz⟩ := hI1
  obtain ⟨h', hh', hInv⟩ := hhdu n t axes hsch
  rw [hn] at hh'
  have heq : h = h' := by
    simpa using hh'
  subst heq
  obtain ⟨hb35, hp2, hpf⟩ := valueAsSet_ok hset
  have hoff := hInv.hoff
  set O := planOffsetAt schema n with hO
  have hpos1 : h.headersWritten * 80 + h.offset = O + 2800 := by
    rw [hc, hoff]
    omega
  have hpos2 : (h.headersWritten + 1) * 80 + h.offset = O + 2880 := by
    rw [hc, hoff]
    omega
  rw [hpos1, hpos2] at hpf
  have husr : readBytes f2 (O + 2800) 80 = some (mkRecord key value) := by
    rw [hpf]
    have hself := readBytes_writeAt_self S1.1 (O + 2800) (mkRecord key value)
    rw [mkRecord_length] at hself
    exact readBytes_writeAt_disjoint _ _ (by left; omega) hself
  have hend2 : readBytes f2 (O + 2880) 80 = some endRecord := by
    rw [hpf]
    have hself := readBytes_writeAt_self
      (writeAt S1.1 (O + 2800) (mkRecord key value)) (O + 2880) endRecord
    rwa [endRecord_length] at hself
  have hkeep : ∀ pos r, pos + 80 ≤ O + 2800 →
      readBytes S1.1 pos 80 = some r → readBytes f2 pos 80 = some r := by
    intro pos r hp hr
    rw [hpf]
    exact readBytes_writeAt_disjoint _ _ (by left; omega)
      (readBytes_writeAt_disjoint _ _ (by left; omega) hr)
  refine ⟨by rw [hp2]; simp only; omega, husr, hend2, ?_⟩
  intro j hj
  have hcl := hInv.hcl
  rcases Nat.lt_or_ge j (axes.length + 4) with hjm | hjm
  · have hmand := hInv.hmand j hjm
    have hpres := hkeep _ _ (by omega) hmand
    rw [hpres]
    intro hc2
    exact absurd (by simpa using hc2)
      (mandRecord_ne_endRecord t axes (by omega))
  · rcases Nat.lt_or_ge j 35 with hj35 | hj35
    · obtain ⟨r, hr, hne⟩ := hInv.huser j hjm (by omega)
      have hpres := hkeep _ _ (by omega) hr
      rw [hpres]
      intro hc2
      exact hne (by simpa using hc2)
    · have hjeq : j = 35 := by omega
      subst hjeq
      have hpq : O + 80 * 35 = O + 2800 := by omega
      rw [hpq, husr]
      intro hc2
      exact hkv (by simpa using hc2)

/-- **C9 (witness).** -/
theorem c9_end_displaced_witness :
    c9wSet.2.headersWritten = 36 ∧
    readBytes c9wSet.1 (planOffsetAt [(FitsType.u8, [1])] 0 + 2800) 80 =
      some (mkRecord [87] [86]) ∧
    readBytes c9wSet.1 (planOffsetAt [(FitsType.u8, [1])] 0 + 2880) 80 =
      some endRecord ∧
    readBytes c9wSet.1 (planOffsetAt [(FitsType.u8, [1])] 0 + 80 * 3) 80 ≠
      some endRecord := by
  have hmk : mkOfits [(FitsType.u8, [1])] = .ok c9wS0 := rfl
  have hrun : runOps c9wS0 c9wOps = .ok c9wS1 := rfl
  have hn : c9wS1.2[0]? = some c9wHdu := rfl
  have hset : valueAsSet c9wS1.1 c9wHdu [87] [86] =
      .ok (c9wSet.1, c9wSet.2) := rfl
  have hcounts : ∀ (i : Nat) (h' : OHdu), c9wS1.2[i]? = some h' →
      h'.headersWritten ≤ 35 := by
    intro i h' hi
    match i with
    | 0 =>
      rw [hn] at hi
      have : c9wHdu = h' := by simpa using hi
      rw [← this]
      decide
    | Nat.succ m =>
      have hl : c9wS1.2.length = 1 := rfl
      rw [List.getElem?_eq_none (by omega)] at hi
      exact absurd hi (by simp)
  have hwf : SchemaWF [(FitsType.u8, [1])] := by
    intro e he
    simp only [List.mem_singleton] at he
    subst he
    exact ⟨by decide, by decide, by decide, by decide⟩
  have h := @c9_end_displaced [(FitsType.u8, [1])] c9wOps c9wS0 c9wS1 0
    FitsType.u8 [1] c9wHdu [87] [86] c9wSet.1 c9wSet.2 hwf hmk hrun
    (by
      intro op ho m k v hop
      rw [hop] at ho
      simp only [c9wOps] at ho
      have := List.eq_of_mem_replicate ho
      simp only [WOp.set.injEq] at this
      obtain ⟨_, rfl, rfl⟩ := this
      decide)
    hcounts (by decide) hn (by decide) hset (by decide)
  exact ⟨h.1, h.2.1, h.2.2.1, h.2.2.2 3 (by decide)⟩

set_option maxRecDepth 400000 in
/-- **C9 (counterexample).**  The final clause of the claim ("the header
block no longer contains an END record") fails on the code: `value_as` with
the 80-byte key `"END"+77 spaces` writes a record byte-identical to the
`END` record into a user slot.  After thirty such `set`s (count 35) and one
more `set`, slot 5 of the header block still holds an `END` record. -/
theorem c9_counterexample :
    ((mkOfits [(FitsType.u8, [1])]).bind (fun S => runOps S c9Ops)).map
      (fun S => (S.2.getD 0
        { elemType := .u8, naxis := [], headersWritten := 0, offset := 0,
          dataBlockSize := 0 }).headersWritten) = .ok 35 ∧
    ((mkOfits [(FitsType.u8, [1])]).bind
        (fun S => runOps S (c9Ops ++ [WOp.set 0 [88] [89]]))).map
      (fun S => readBytes S.1 (80 * 5) 80) = .ok (some endRecord) := by decide

/-! ## Claim C10 -/

/-- **C10.**  The reader's `value_as_optional<T>(key)` returns an empty
optional exactly when the key is absent from the headers; when the key is
present but its stored string does not convert to `T`, it throws a conversion
error (`ParseError`) instead of returning an empty optional. -/
theorem c10_value_as_optional {α : Type} (parse : List Nat → Option α)
    (hs : List (List Nat × List Nat)) (key : List Nat) :
    (valueAsOptional parse hs key = .ok none ↔ findHeader hs key = none) ∧
    (∀ v, findHeader hs key = some v → parse v = none →
      valueAsOptional parse hs key = .error .parseError) := by
  constructor
  · constructor
    · intro h
      by_contra hne
      obtain ⟨v, hv⟩ : ∃ v, findHeader hs key = some v := by
        cases hf : findHeader hs key with
        | none => exact absurd hf hne
        | some v => exact ⟨v, rfl⟩
      cases hp : parse v with
      | none =>
        rw [valueAsOptional, hv] at h
        simp [hp] at h
      | some x =>
        rw [valueAsOptional, hv] at h
        simp [hp] at h
    · intro h
      rw [valueAsOptional, h]
  · intro v hv hp
    rw [valueAsOptional, hv]
    simp [hp]

/-- **C10 (witness).**  On headers `[("SIMPLE", "T")]` with `T = int`:
`SIMPLE` is present but `"T"` does not convert, so the call throws
`ParseError`; an absent key gives an empty optional. -/
theorem c10_value_as_optional_witness :
    valueAsOptional parseIntStream [(kSIMPLE, kT)] kSIMPLE =
      .error .parseError ∧
    valueAsOptional parseIntStream [(kSIMPLE, kT)] kBITPIX = .ok none := by
  constructor
  · exact (c10_value_as_optional parseIntStream [(kSIMPLE, kT)] kSIMPLE).2
      kT (by decide) (by decide)
  · exact ((c10_value_as_optional parseIntStream [(kSIMPLE, kT)] kBITPIX).1).mpr
      (by decide)

end LibFits
